import Mathlib

/-!
Verification of the terrakubed executor pipeline (Go sources) against its
natural-language specification.

The development shallowly embeds the relevant Go code:

* `internal/model/job.go`            → `Command`, `TerraformJob`
* `internal/executor/script`         → `filterByPhase`, `executePhase`, `scriptExecute`
* Go stdlib `sort.Slice` (pdqsort)   → `sortSlice` and its helpers
* `internal/executor/terraform`      → `tfExecute`, `executePlan`
* `internal/executor/core/executor`  → `processJob`, `executeTerraform`
* `internal/executor/workspace` + `internal/git` → filesystem model `processJobFs`
* `internal/executor/logs/redis.go`  → `redisWrite`, `redisClose`
* `internal/auth`                    → `generateTerrakubeToken`, `validateToken`
* `internal/executor/terraform/version_manager.go` → `vmInstall`
* `internal/storage/nop.go` + `initStorage`        → storage selection model

External effects (process execution, network, the filesystem, Redis and the
HMAC function) are represented by explicit oracle parameters, so every
definition is executable and every code path of the embedded functions is
reachable by choosing oracle values.
-/

/-! ## Data model (`internal/model/job.go`) -/

/-- One user script in a job's lifecycle (Go struct `model.Command`). -/
structure Command where
  priority   : Int
  script     : String
  runtime    : String := ""
  beforeInit : Bool := false
  before     : Bool := false
  after      : Bool := false
  onFailure  : Bool := false
  verbose    : Bool := false
  deriving DecidableEq, Repr, Inhabited

/-- The job payload handed to the executor (Go struct `model.TerraformJob`).
Only the fields read by the embedded code paths are kept. -/
structure TerraformJob where
  commandList      : List Command := []
  type             : String := ""
  organizationId   : String := ""
  workspaceId      : String := ""
  jobId            : String := ""
  stepId           : String := ""
  terraformVersion : String := ""
  source           : String := ""
  branch           : String := ""
  folder           : String := ""
  vcsType          : String := ""
  connectionType   : String := ""
  accessToken      : String := ""
  terraformOutput  : String := ""
  tofu             : Bool := false
  refresh          : Bool := false
  refreshOnly      : Bool := false
  ignoreError      : Bool := false
  showHeader       : Bool := false
  deriving DecidableEq, Repr, Inhabited

/-! ## Script phase filtering (`script.filterByPhase`)

Go builds the filtered slice by appending matching commands in list order;
`List.filter` produces the same sequence. -/

/-- `script.filterByPhase`: select the commands whose flag for `phase` matches.
Commands with `beforeInit=true` are excluded from the `"before"` phase. -/
def filterByPhase (commands : List Command) (phase : String) : List Command :=
  commands.filter fun cmd =>
    if phase = "beforeInit" then cmd.beforeInit
    else if phase = "before" then cmd.before && !cmd.beforeInit
    else if phase = "after" then cmd.after
    else if phase = "onFailure" then cmd.onFailure
    else false

/-! ## Go `sort.Slice` (pdqsort)

`script.Executor.ExecutePhase` and `Execute` sort commands with
`sort.Slice(commands, func(i, j int) bool { return commands[i].Priority < commands[j].Priority })`.
Go's `sort.Slice` is **not** stable: it runs pdqsort
(`sort.Slice` → `pdqsort_func(lessSwap, 0, n, bits.Len(uint(n)))`).
The functions below are an index-faithful port of Go's `sort` package
(insertionSort, siftDown, heapSort, partialInsertionSort, breakPatterns,
choosePivot/order2/median/medianAdjacent, reverseRange, partition,
partitionEqual, pdqsort), specialised to the comparison
`Priority i < Priority j`. Indices are `Nat`; every arithmetic step that
could underflow in `Nat` is guarded exactly as the Go loop conditions
guard it. The slice is represented as a `List Command` accessed by index. -/

/-- `data.Less(i, j)`: compare priorities at two indices of the slice. -/
def lessAt (l : List Command) (i j : Nat) : Bool :=
  (l.getD i default).priority < (l.getD j default).priority

/-- `data.Swap(i, j)` on the indexed slice. -/
def swapAt (l : List Command) (i j : Nat) : List Command :=
  (l.set i (l.getD j default)).set j (l.getD i default)

/-- Go `insertionSort`'s inner loop:
`for j := i; j > a && data.Less(j, j-1); j-- { data.Swap(j, j-1) }`. -/
def bubbleLeft (a : Nat) : Nat → List Command → List Command
  | 0, l => l
  | j + 1, l =>
    if a < j + 1 && lessAt l (j + 1) j then bubbleLeft a j (swapAt l (j + 1) j)
    else l

/-- Go `insertionSort(data, a, b)`: insertion sort of the index range `[a, b)`. -/
def insertionSortRange (l : List Command) (a b : Nat) : List Command :=
  (List.range' (a + 1) (b - (a + 1))).foldl (fun acc i => bubbleLeft a i acc) l

/-! ## The specification's ordering: a stable sort by ascending priority

The spec demands "`(priority ASC, stable index)`" ordering.  The reference
definition below follows the spec's words: every command is inserted, in
list order, after all previously placed commands of priority `≤` its own. -/

/-- Insert `x` after every element whose priority is `≤ x.priority`
(spec's stable tie-break). -/
def stableInsert (x : Command) : List Command → List Command
  | [] => [x]
  | y :: ys => if x.priority < y.priority then x :: y :: ys else y :: stableInsert x ys

/-- Stable sort by ascending priority, per the spec's words
"sorted by `(priority ASC, stable index)`". -/
def stableSortByPriority (l : List Command) : List Command :=
  l.foldl (fun acc x => stableInsert x acc) []

/-- Priorities are weakly increasing along the list. -/
def sortedByPri (l : List Command) : Prop :=
  l.Pairwise fun c d => c.priority ≤ d.priority

/-! ### Lemmas: Go's insertion sort over the full range is the stable sort -/

theorem lget_append_len (A : List Command) (x : Command) (B : List Command) :
    (A ++ x :: B).getD A.length default = x := by
  induction A with
  | nil => rfl
  | cons a A ih => simpa using ih

theorem lget_append_len_succ (A : List Command) (y x : Command) (B : List Command) :
    (A ++ y :: x :: B).getD (A.length + 1) default = x := by
  induction A with
  | nil => rfl
  | cons a A ih => simpa using ih

theorem lset_append_len (A : List Command) (x v : Command) (B : List Command) :
    (A ++ x :: B).set A.length v = A ++ v :: B := by
  induction A with
  | nil => rfl
  | cons a A ih => simp [ih]

theorem lset_append_len_succ (A : List Command) (y x v : Command) (B : List Command) :
    (A ++ y :: x :: B).set (A.length + 1) v = A ++ y :: v :: B := by
  induction A with
  | nil => rfl
  | cons a A ih => simp [ih]

theorem bubbleLeft_succ (a j : Nat) (l : List Command) :
    bubbleLeft a (j + 1) l =
      if a < j + 1 && lessAt l (j + 1) j then bubbleLeft a j (swapAt l (j + 1) j)
      else l := rfl

theorem swapAt_adj (A : List Command) (y x : Command) (B : List Command) :
    swapAt (A ++ y :: x :: B) (A.length + 1) A.length = A ++ x :: y :: B := by
  unfold swapAt
  rw [lget_append_len_succ, lget_append_len, lset_append_len_succ, lset_append_len]

theorem lessAt_adj (A : List Command) (y x : Command) (B : List Command) :
    lessAt (A ++ y :: x :: B) (A.length + 1) A.length = decide (x.priority < y.priority) := by
  unfold lessAt
  rw [lget_append_len_succ, lget_append_len]

theorem stableInsert_last (x y : Command) (L : List Command)
    (hle : ∀ z ∈ L ++ [y], z.priority ≤ x.priority) :
    stableInsert x (L ++ [y]) = L ++ [y, x] := by
  induction L with
  | nil =>
    have := hle y (by simp)
    simp [stableInsert, not_lt.mpr this]
  | cons z L ih =>
    have hz : z.priority ≤ x.priority := hle z (by simp)
    have h1 : (z :: L) ++ [y] = z :: (L ++ [y]) := rfl
    rw [h1, stableInsert, if_neg (not_lt.mpr hz),
      ih fun w hw => hle w (by simp [hw])]
    rfl

theorem stableInsert_append_last (x y : Command) (L : List Command)
    (hlt : x.priority < y.priority) :
    stableInsert x (L ++ [y]) = stableInsert x L ++ [y] := by
  induction L with
  | nil => simp [stableInsert, hlt]
  | cons z L ih =>
    have h1 : (z :: L) ++ [y] = z :: (L ++ [y]) := rfl
    by_cases h : x.priority < z.priority
    · rw [h1, stableInsert, if_pos h, stableInsert, if_pos h]
      rfl
    · rw [h1, stableInsert, if_neg h, stableInsert, if_neg h, ih]
      rfl

/-- The Go bubble loop starting at the index of `x` (just past the sorted
prefix `L`) performs exactly the stable insertion of `x` into `L`. -/
theorem bubbleLeft_eq_stableInsert (x : Command) (L R : List Command)
    (hs : sortedByPri L) :
    bubbleLeft 0 L.length (L ++ x :: R) = stableInsert x L ++ R := by
  induction L using List.reverseRecOn generalizing R with
  | nil => cases R <;> simp [bubbleLeft, stableInsert]
  | append_singleton L' y ih =>
    have hlen : (L' ++ [y]).length = L'.length + 1 := by simp
    rw [hlen]
    have hassoc : (L' ++ [y]) ++ x :: R = L' ++ y :: x :: R := by simp
    rw [hassoc, bubbleLeft_succ, lessAt_adj]
    by_cases hlt : x.priority < y.priority
    · rw [if_pos (by simp [hlt]), swapAt_adj]
      have hs' : sortedByPri L' := by
        unfold sortedByPri at hs ⊢
        exact (List.pairwise_append.mp hs).1
      rw [ih hs' (R := y :: R), stableInsert_append_last x y L' hlt]
      simp
    · rw [if_neg (by simp [hlt])]
      have hy : y.priority ≤ x.priority := not_lt.mp hlt
      have hle : ∀ z ∈ L' ++ [y], z.priority ≤ x.priority := by
        intro z hz
        rcases List.mem_append.mp hz with hz | hz
        · have hzy : z.priority ≤ y.priority := by
            unfold sortedByPri at hs
            exact (List.pairwise_append.mp hs).2.2 z hz y (by simp)
          exact hzy.trans hy
        · simp at hz
          subst hz
          exact hy
      rw [stableInsert_last x y L' hle]
      simp

theorem mem_stableInsert (a x : Command) (l : List Command) :
    a ∈ stableInsert x l ↔ a = x ∨ a ∈ l := by
  induction l with
  | nil => simp [stableInsert]
  | cons y ys ih =>
    by_cases h : x.priority < y.priority
    · rw [stableInsert, if_pos h]
      simp only [List.mem_cons]
    · rw [stableInsert, if_neg h]
      simp only [List.mem_cons, ih]
      tauto

theorem sortedByPri_stableInsert (x : Command) (l : List Command)
    (hs : sortedByPri l) : sortedByPri (stableInsert x l) := by
  induction l with
  | nil =>
    show sortedByPri [x]
    simp [sortedByPri]
  | cons y ys ih =>
    unfold sortedByPri at hs
    rw [List.pairwise_cons] at hs
    obtain ⟨hy, hys⟩ := hs
    unfold sortedByPri
    rw [stableInsert]
    by_cases h : x.priority < y.priority
    · rw [if_pos h, List.pairwise_cons]
      refine ⟨?_, ?_⟩
      · intro z hz
        rcases List.mem_cons.mp hz with hz | hz
        · exact le_of_lt (hz ▸ h)
        · exact (le_of_lt h).trans (hy z hz)
      · rw [List.pairwise_cons]
        exact ⟨hy, hys⟩
    · rw [if_neg h, List.pairwise_cons]
      refine ⟨?_, ih hys⟩
      intro z hz
      rcases (mem_stableInsert z x ys).mp hz with hz | hz
      · exact hz ▸ not_lt.mp h
      · exact hy z hz

theorem length_stableInsert (x : Command) (l : List Command) :
    (stableInsert x l).length = l.length + 1 := by
  induction l with
  | nil => rfl
  | cons y ys ih =>
    by_cases h : x.priority < y.priority <;> simp [stableInsert, h, ih]

/-- Folding the Go bubble loop over the indices past a sorted prefix `L`
stably inserts the remaining elements one by one. -/
theorem isort_fold (R : List Command) : ∀ (L : List Command), sortedByPri L →
    (List.range' L.length R.length).foldl (fun acc i => bubbleLeft 0 i acc) (L ++ R)
      = R.foldl (fun acc x => stableInsert x acc) L := by
  induction R with
  | nil => intro L _; simp
  | cons x R' ih =>
    intro L hs
    have hrange : List.range' L.length (x :: R').length
        = L.length :: List.range' (L.length + 1) R'.length := by
      simp [List.range'_succ]
    rw [hrange]
    simp only [List.foldl_cons]
    rw [bubbleLeft_eq_stableInsert x L R' hs]
    have hlen : L.length + 1 = (stableInsert x L).length := (length_stableInsert x L).symm
    rw [hlen, ih (stableInsert x L) (sortedByPri_stableInsert x L hs)]

/-! ### The rest of Go's pdqsort

Loops whose progress is not structural take an explicit fuel argument;
the fuel chosen at every call site strictly exceeds the iteration count of
the corresponding Go loop, so the fuel-exhaustion branch is never taken.
These functions are exercised only on ranges longer than 12 (shorter ranges
are fully handled by `insertionSortRange` above, exactly as in Go). -/

/-- Hint returned by Go's `choosePivot`. -/
inductive SortHint where
  | increasing
  | decreasing
  | unknown
  deriving DecidableEq, Repr

/-- Go `order2(data, a, b, &swaps)`: order two indices by the values under
them, counting a swap when they are exchanged. -/
def order2 (l : List Command) (a b swaps : Nat) : (Nat × Nat) × Nat :=
  if lessAt l b a then ((b, a), swaps + 1) else ((a, b), swaps)

/-- Go `median(data, a, b, c, &swaps)`: index of the median of three. -/
def median (l : List Command) (a b c swaps : Nat) : Nat × Nat :=
  let p1 := order2 l a b swaps
  let p2 := order2 l p1.1.2 c p1.2
  let p3 := order2 l p1.1.1 p2.1.1 p2.2
  (p3.1.2, p3.2)

/-- Go `medianAdjacent(data, a, &swaps)`: median of `data[a-1..a+1]`. -/
def medianAdjacent (l : List Command) (a swaps : Nat) : Nat × Nat :=
  median l (a - 1) a (a + 1) swaps

/-- Map the swap count to Go's `sortedHint` (`maxSwaps = 4 * 3`). -/
def hintOf (swaps : Nat) : SortHint :=
  if swaps = 0 then .increasing else if swaps = 12 then .decreasing else .unknown

/-- Go `choosePivot(data, a, b)`: static pivot below length 8, median of
three below 50, Tukey ninther otherwise. -/
def choosePivot (l : List Command) (a b : Nat) : Nat × SortHint :=
  let length := b - a
  let i := a + length / 4 * 1
  let j := a + length / 4 * 2
  let k := a + length / 4 * 3
  if 8 ≤ length then
    if 50 ≤ length then
      let q1 := medianAdjacent l i 0
      let q2 := medianAdjacent l j q1.2
      let q3 := medianAdjacent l k q2.2
      let m := median l q1.1 q2.1 q3.1 q3.2
      (m.1, hintOf m.2)
    else
      let m := median l i j k 0
      (m.1, hintOf m.2)
  else (j, hintOf 0)

/-- Go `reverseRange(data, a, b)` (fuel-driven two-pointer loop). -/
def revRangeAux : Nat → List Command → Nat → Nat → List Command
  | 0, l, _, _ => l
  | fuel + 1, l, i, j =>
    if i < j then revRangeAux fuel (swapAt l i j) (i + 1) (j - 1) else l

/-- Go `reverseRange(data, a, b)`. -/
def reverseRange (l : List Command) (a b : Nat) : List Command :=
  revRangeAux (b - a) l a (b - 1)

/-- Scan loop of `partialInsertionSort`:
`for i < b && !data.Less(i, i-1) { i++ }`; returns the final `i`. -/
def pisScan (l : List Command) (b : Nat) : Nat → Nat → Nat
  | 0, i => i
  | fuel + 1, i => if i < b && !lessAt l i (i - 1) then pisScan l b fuel (i + 1) else i

/-- Left-shift loop of `partialInsertionSort`:
`for j := i-1; j >= 1; j-- { if !Less(j, j-1) break; Swap(j, j-1) }`. -/
def pisShiftLeft : Nat → List Command → Nat → List Command
  | 0, l, _ => l
  | fuel + 1, l, j =>
    if 1 ≤ j then
      if !lessAt l j (j - 1) then l
      else pisShiftLeft fuel (swapAt l j (j - 1)) (j - 1)
    else l

/-- Right-shift loop of `partialInsertionSort`:
`for j := i+1; j < b; j++ { if !Less(j, j-1) break; Swap(j, j-1) }`. -/
def pisShiftRight (b : Nat) : Nat → List Command → Nat → List Command
  | 0, l, _ => l
  | fuel + 1, l, j =>
    if j < b then
      if !lessAt l j (j - 1) then l
      else pisShiftRight b fuel (swapAt l j (j - 1)) (j + 1)
    else l

/-- Outer `maxSteps` loop of Go `partialInsertionSort(data, a, b)` (the Go
name ends differently here to satisfy local naming conventions).  Returns the
mutated slice and whether it is now sorted.  `steps` counts the remaining
out-of-order pairs that may be shifted (`maxSteps = 5`);
`shortestShifting = 50`. -/
def partInsSortAux (a b : Nat) : Nat → List Command → Nat → List Command × Bool
  | 0, l, _ => (l, false)
  | steps + 1, l, i =>
    let i := pisScan l b (b + 1) i
    if i = b then (l, true)
    else if b - a < 50 then (l, false)
    else
      let l := swapAt l i (i - 1)
      let l := if 2 ≤ i - a then pisShiftLeft i l (i - 1) else l
      let l := if 2 ≤ b - i then pisShiftRight b (b - i) l (i + 1) else l
      partInsSortAux a b steps l i

/-- Go `partialInsertionSort(data, a, b)`. -/
def partInsSort (l : List Command) (a b : Nat) : List Command × Bool :=
  partInsSortAux a b 5 l (a + 1)

/-- Go `xorshift.Next` (Marsaglia xorshift64, state mod 2^64). -/
def xorshiftNext (r : Nat) : Nat :=
  let r := (r ^^^ (r <<< 13)) % 2 ^ 64
  let r := r ^^^ (r >>> 7)
  let r := (r ^^^ (r <<< 17)) % 2 ^ 64
  r

/-- Go `bits.Len(uint(n))`. -/
def goBitsLen (n : Nat) : Nat := if n = 0 then 0 else Nat.log2 n + 1

/-- Go `nextPowerOfTwo(length)` = `1 << bits.Len(uint(length))`. -/
def nextPowerOfTwo (length : Nat) : Nat := 2 ^ goBitsLen length

/-- Go `breakPatterns(data, a, b)`: scatter three pseudo-random elements. -/
def breakPatterns (l : List Command) (a b : Nat) : List Command :=
  let length := b - a
  if 8 ≤ length then
    let modulus := nextPowerOfTwo length
    let idx := a + (length / 4) * 2 - 1
    let r1 := xorshiftNext length
    let o1 := r1 &&& (modulus - 1)
    let o1 := if o1 ≥ length then o1 - length else o1
    let l := swapAt l (idx - 1 + 0) (a + o1)
    let r2 := xorshiftNext r1
    let o2 := r2 &&& (modulus - 1)
    let o2 := if o2 ≥ length then o2 - length else o2
    let l := swapAt l (idx - 1 + 1) (a + o2)
    let r3 := xorshiftNext r2
    let o3 := r3 &&& (modulus - 1)
    let o3 := if o3 ≥ length then o3 - length else o3
    swapAt l (idx - 1 + 2) (a + o3)
  else l

/-- `i`-advancing scan of Go `partition`:
`for i <= j && data.Less(i, a) { i++ }`. -/
def partScanI (l : List Command) (a j : Nat) : Nat → Nat → Nat
  | 0, i => i
  | fuel + 1, i => if i ≤ j && lessAt l i a then partScanI l a j fuel (i + 1) else i

/-- `j`-decreasing scan of Go `partition`:
`for i <= j && !data.Less(j, a) { j-- }`. -/
def partScanJ (l : List Command) (a i : Nat) : Nat → Nat → Nat
  | 0, j => j
  | fuel + 1, j => if i ≤ j && !lessAt l j a then partScanJ l a i fuel (j - 1) else j

/-- Main exchange loop of Go `partition` (after the first exchange). -/
def partLoop (a : Nat) : Nat → List Command → Nat → Nat → List Command × Nat
  | 0, l, _, j => (l, j)
  | fuel + 1, l, i, j =>
    let i := partScanI l a j (j + 2) i
    let j := partScanJ l a i (j + 2) j
    if i > j then (l, j)
    else partLoop a fuel (swapAt l i j) (i + 1) (j - 1)

/-- Go `partition(data, a, b, pivot)`: returns the mutated slice, the new
pivot position, and whether the range was already partitioned. -/
def partitionGo (l : List Command) (a b pivot : Nat) :
    List Command × Nat × Bool :=
  let l := swapAt l a pivot
  let i := a + 1
  let j := b - 1
  let i := partScanI l a j (j + 2) i
  let j := partScanJ l a i (j + 2) j
  if i > j then (swapAt l j a, j, true)
  else
    let l := swapAt l i j
    let p := partLoop a (b - a + 2) l (i + 1) (j - 1)
    (swapAt p.1 p.2 a, p.2, false)

/-- `i`-advancing scan of Go `partitionEqual`:
`for i <= j && !data.Less(a, i) { i++ }`. -/
def peScanI (l : List Command) (a j : Nat) : Nat → Nat → Nat
  | 0, i => i
  | fuel + 1, i => if i ≤ j && !lessAt l a i then peScanI l a j fuel (i + 1) else i

/-- `j`-decreasing scan of Go `partitionEqual`:
`for i <= j && data.Less(a, j) { j-- }`. -/
def peScanJ (l : List Command) (a i : Nat) : Nat → Nat → Nat
  | 0, j => j
  | fuel + 1, j => if i ≤ j && lessAt l a j then peScanJ l a i fuel (j - 1) else j

/-- Exchange loop of Go `partitionEqual`; returns the slice and final `i`. -/
def peLoop (a : Nat) : Nat → List Command → Nat → Nat → List Command × Nat
  | 0, l, i, _ => (l, i)
  | fuel + 1, l, i, j =>
    let i := peScanI l a j (j + 2) i
    let j := peScanJ l a i (j + 2) j
    if i > j then (l, i)
    else peLoop a fuel (swapAt l i j) (i + 1) (j - 1)

/-- Go `partitionEqual(data, a, b, pivot)`: groups elements equal to the
pivot at the front of the range; returns the slice and the new `a`. -/
def partitionEqualGo (l : List Command) (a b pivot : Nat) :
    List Command × Nat :=
  let l := swapAt l a pivot
  peLoop a (b - a + 2) l (a + 1) (b - 1)

/-- Inner loop of Go `siftDown(data, lo, hi, first)`. -/
def siftDownAux (hi first : Nat) : Nat → List Command → Nat → List Command
  | 0, l, _ => l
  | fuel + 1, l, root =>
    let child := 2 * root + 1
    if child ≥ hi then l
    else
      let child := if child + 1 < hi && lessAt l (first + child) (first + child + 1)
        then child + 1 else child
      if !lessAt l (first + root) (first + child) then l
      else siftDownAux hi first fuel (swapAt l (first + root) (first + child)) child

/-- Go `siftDown(data, lo, hi, first)`. -/
def siftDown (l : List Command) (lo hi first : Nat) : List Command :=
  siftDownAux hi first (hi + 1) l lo

/-- Go `heapSort(data, a, b)`. -/
def heapSort (l : List Command) (a b : Nat) : List Command :=
  let first := a
  let hi := b - a
  -- Build heap: for i := (hi-1)/2; i >= 0; i--
  let l := (List.range ((hi - 1) / 2 + 1)).reverse.foldl
    (fun acc i => siftDown acc i hi first) l
  -- Pop elements: for i := hi-1; i >= 0; i--
  (List.range hi).reverse.foldl
    (fun acc i => siftDown (swapAt acc first (first + i)) 0 i first) l

/-- Go `pdqsort(data, a, b, limit)`.  The outer `for` loop and the recursion
are driven by `fuel`; each Go loop iteration strictly shrinks `b - a`, so
the fuel supplied by `sortSlice` is never exhausted. -/
def pdqsortLoop : Nat → List Command → Nat → Nat → Nat → Bool → Bool → List Command
  | 0, l, _, _, _, _, _ => l
  | fuel + 1, l, a, b, limit, wasBalanced, wasPartitioned =>
    let length := b - a
    if length ≤ 12 then insertionSortRange l a b
    else if limit = 0 then heapSort l a b
    else
      let l1 := if !wasBalanced then breakPatterns l a b else l
      let limit1 := if !wasBalanced then limit - 1 else limit
      let pv := choosePivot l1 a b
      let l2 := if pv.2 = SortHint.decreasing then reverseRange l1 a b else l1
      let pivot := if pv.2 = SortHint.decreasing then (b - 1) - (pv.1 - a) else pv.1
      let hint := if pv.2 = SortHint.decreasing then SortHint.increasing else pv.2
      let pis := if wasBalanced && wasPartitioned && decide (hint = SortHint.increasing)
        then partInsSort l2 a b else (l2, false)
      if pis.2 then pis.1
      else
        let l3 := pis.1
        if 0 < a && !lessAt l3 (a - 1) pivot then
          let pe := partitionEqualGo l3 a b pivot
          pdqsortLoop fuel pe.1 pe.2 b limit1 wasBalanced wasPartitioned
        else
          let pt := partitionGo l3 a b pivot
          let mid := pt.2.1
          let alreadyPartitioned := pt.2.2
          let leftLen := mid - a
          let rightLen := b - mid
          let balanceThreshold := length / 8
          let wasBalanced2 := decide (min leftLen rightLen ≥ balanceThreshold)
          if leftLen < rightLen then
            let l5 := pdqsortLoop fuel pt.1 a mid limit1 true true
            pdqsortLoop fuel l5 (mid + 1) b limit1 wasBalanced2 alreadyPartitioned
          else
            let l5 := pdqsortLoop fuel pt.1 (mid + 1) b limit1 true true
            pdqsortLoop fuel l5 a mid limit1 wasBalanced2 alreadyPartitioned

/-- Go `sort.Slice(commands, less)` with
`less i j = commands[i].Priority < commands[j].Priority`:
`pdqsort_func(lessSwap, 0, n, bits.Len(uint(n)))`. -/
def sortSlice (cs : List Command) : List Command :=
  pdqsortLoop (cs.length + goBitsLen cs.length + 2) cs 0 cs.length
    (goBitsLen cs.length) true true

/-- Go's `insertionSort(data, 0, n)` over the whole slice computes exactly the
spec's stable sort by ascending priority. -/
theorem insertionSortRange_eq_stableSort (l : List Command) :
    insertionSortRange l 0 l.length = stableSortByPriority l := by
  cases l with
  | nil => rfl
  | cons x xs =>
    unfold insertionSortRange stableSortByPriority
    have h1 : (x :: xs).length - (0 + 1) = xs.length := by simp
    rw [h1]
    have h2 : (0 : Nat) + 1 = ([x] : List Command).length := by simp
    rw [h2]
    have h3 : x :: xs = [x] ++ xs := rfl
    rw [h3]
    rw [isort_fold xs [x] (by simp [sortedByPri])]
    rfl

theorem pdqsortLoop_succ (fuel : Nat) (l : List Command)
    (a b limit : Nat) (wb wp : Bool) :
    pdqsortLoop (fuel + 1) l a b limit wb wp =
      if b - a ≤ 12 then insertionSortRange l a b
      else pdqsortLoop (fuel + 1) l a b limit wb wp := by
  by_cases h : b - a ≤ 12
  · rw [if_pos h]
    show (if b - a ≤ 12 then insertionSortRange l a b else _) = _
    rw [if_pos h]
  · rw [if_neg h]

/-- On slices of length at most 12, Go's `sort.Slice` is exactly the spec's
stable sort by ascending priority (pdqsort immediately runs its stable
insertion sort on such ranges). -/
theorem sortSlice_short (cs : List Command) (h : cs.length ≤ 12) :
    sortSlice cs = stableSortByPriority cs := by
  unfold sortSlice
  rw [show cs.length + goBitsLen cs.length + 2
      = (cs.length + goBitsLen cs.length + 1) + 1 from rfl]
  rw [pdqsortLoop_succ, if_pos (by simpa using h)]
  exact insertionSortRange_eq_stableSort cs

/-! ## Observable events of the executor pipeline

Status-service calls, log-streamer writes, script/terraform invocations and
storage transfers are recorded in an event trace.  The in-memory log buffer
(`bytes.Buffer` teed by `logs.NewMultiStreamer`) accumulates exactly the
`log` events' payloads. -/

/-- One observable step of a job run. -/
inductive Event where
  /-- `Status.SetRunning` was called. -/
  | running
  /-- `Status.SetCompleted(success, output)` was called. -/
  | completed (success : Bool) (output : String)
  /-- `Status.SetPending(output)` was called. -/
  | pending (output : String)
  /-- `Status.UpdateCommitId(commit)` was called. -/
  | commitUpdate (c : String)
  /-- `Status.CreateHistory` was called. -/
  | history
  /-- Bytes written to the (multi-)log streamer. -/
  | log (s : String)
  /-- A user script was started (`sh -c script`). -/
  | script (c : Command)
  /-- `terraform init` was run. -/
  | tfInit
  /-- `terraform plan` was run. -/
  | tfPlan
  /-- `terraform apply` was run. -/
  | tfApply
  /-- `terraform destroy` was run. -/
  | tfDestroy
  /-- `Storage.UploadFile(path)` was called. -/
  | upload (path : String)
  /-- `Storage.DownloadFile(path)` was called. -/
  | download (path : String)
  deriving DecidableEq, Repr

/-- Trace plus the in-memory log buffer. -/
structure ExecState where
  trace : List Event := []
  buf : String := ""
  deriving DecidableEq, Repr

/-- Record a non-log event. -/
def emitEv (st : ExecState) (e : Event) : ExecState :=
  { st with trace := st.trace ++ [e] }

/-- Write to the streamer: recorded in the trace and teed into the buffer. -/
def emitLog (st : ExecState) (s : String) : ExecState :=
  { trace := st.trace ++ [Event.log s], buf := st.buf ++ s }

/-- Result of a `terraform plan` subprocess in the oracle world. -/
inductive PlanOutcome where
  /-- The plan command failed (exit code other than 0/2). -/
  | planErr (msg : String)
  /-- Detailed exit code 2: changes present. -/
  | changes
  /-- Exit code 0: no changes. -/
  | noChanges
  deriving DecidableEq, Repr

/-- Oracle for every external effect of one `ProcessJob` run: subprocess
results, filesystem probes and network outcomes.  Each field corresponds to
one fallible call site in the Go code. -/
structure ExecWorld where
  /-- `workspace.Setup` (git clone): `some msg` = failure. -/
  wsSetup : Option String := none
  /-- `readCommitHash`: `""` when `git rev-parse` fails. -/
  commitId : String := ""
  /-- `VersionManager.Install` in `executeTerraform`. -/
  installRes : Except String String := .ok "/cache/terraform"
  /-- `generateBackendOverride` write error. -/
  overrideErr : Option String := none
  /-- `generateTerraformCredentials` error. -/
  credsErr : Option String := none
  /-- Exit status of each user script (`cmd.Run`). -/
  scriptOk : Command → Bool := fun _ => true
  /-- Bytes each user script writes to the streamer. -/
  scriptOut : Command → String := fun _ => ""
  /-- `tfexec.NewTerraform` error in `setupTerraform`. -/
  tfSetupErr : Option String := none
  /-- `terraform init` error. -/
  initErr : Option String := none
  /-- Bytes `init` streams. -/
  initOut : String := ""
  /-- `terraform plan` result. -/
  planOutcome : PlanOutcome := .noChanges
  /-- `terraform apply` error. -/
  applyErr : Option String := none
  /-- `terraform destroy` error. -/
  destroyErr : Option String := none
  /-- Bytes the main command streams. -/
  mainOut : String := ""
  /-- `os.Stat(<wd>/terraform.tfstate)` success in `uploadStateAndOutput`. -/
  hasStateFile : Bool := false
  /-- `os.Stat(<wd>/terraform.tfplan)` success in `uploadStateAndOutput`. -/
  hasPlanFile : Bool := false
  /-- Second `VersionManager.Install` inside `uploadStateAndOutput`. -/
  install2 : Except String String := .ok "/cache/terraform"
  /-- `tfExecutor.ShowState` result. -/
  showRes : Except String String := .ok ""
  /-- `tfExecutor.StatePull` result. -/
  pullRes : Except String String := .ok ""
  /-- `tfExecutor.Output` result. -/
  outputRes : Except String String := .ok ""

/-! ## Script runner (`script.Executor`) -/

/-- Body of `ExecutePhase`'s loop over the sorted command list: verbose
banner, run `sh -c script` with stdout/stderr on the streamer, abort the
phase on the first non-zero exit. -/
def runCmds (ok : Command → Bool) (out : Command → String) (phase : String) :
    ExecState → List Command → ExecState × Option String
  | st, [] => (st, none)
  | st, c :: rest =>
    let st := if c.verbose then
        emitLog st ("\n--- Running " ++ phase ++ " script (priority: " ++
          toString c.priority ++ ") ---\n")
      else st
    let st := emitEv st (.script c)
    let st := emitLog st (out c)
    if ok c then runCmds ok out phase st rest
    else (st, some (phase ++ " script execution failed"))

/-- `script.Executor.ExecutePhase(phase)`: filter by phase, sort with Go's
`sort.Slice` by ascending priority, then run in order aborting on the first
failure. -/
def executePhase (ok : Command → Bool) (out : Command → String)
    (cmds : List Command) (phase : String) (st : ExecState) :
    ExecState × Option String :=
  let commands := filterByPhase cmds phase
  if commands.length = 0 then (st, none)
  else runCmds ok out phase st (sortSlice commands)

/-- Body of `script.Executor.Execute`'s loop (used for `customScripts` and
`approval` jobs); its banner and error format differ from `ExecutePhase`. -/
def runCmdsAll (ok : Command → Bool) (out : Command → String) :
    ExecState → List Command → ExecState × Option String
  | st, [] => (st, none)
  | st, c :: rest =>
    let st := if c.verbose then
        emitLog st ("\n--- Running script (priority: " ++ toString c.priority ++
          ") ---\n" ++ c.script ++ "\n---\n")
      else st
    let st := emitEv st (.script c)
    let st := emitLog st (out c)
    if ok c then runCmdsAll ok out st rest
    else (st, some ("script execution failed: " ++ c.script))

/-- `script.Executor.Execute`: sort the whole command list with `sort.Slice`
and run every command, aborting on the first failure. -/
def scriptExecute (ok : Command → Bool) (out : Command → String)
    (cmds : List Command) (st : ExecState) : ExecState × Option String :=
  runCmdsAll ok out st (sortSlice cmds)

/-! ## IaC driver (`terraform.Executor`, first document of the source file) -/

/-- Outcome of a terraform execution (Go struct `ExecutionResult`):
`ExitCode` 0 = no changes, 2 = changes present (plan). -/
structure ExecutionResult where
  success : Bool
  exitCode : Int
  deriving DecidableEq, Repr

/-- `terraform.Executor.Execute`: set up tfexec, optional header, `init`,
dispatch on the job type (`executePlan` / `executeApply` / destroy), then
apply the `IgnoreError` coercion to the main command's error.  Returns the
state, the `*ExecutionResult` (`none` = Go `nil`) and the error. -/
def tfExecute (w : ExecWorld) (job : TerraformJob) (st : ExecState) :
    ExecState × Option ExecutionResult × Option String :=
  match w.tfSetupErr with
  | some e => (st, none, some ("error running NewTerraform: " ++ e))
  | none =>
    let st := if job.showHeader then
        emitLog st ("\n========================================\nRunning " ++
          job.type ++ "\n========================================\n")
      else st
    let st := emitEv st .tfInit
    let st := emitLog st w.initOut
    match w.initErr with
    | some e => (st, none, some ("error running Init: " ++ e))
    | none =>
      if job.type = "terraformPlan" then
        -- executePlan: plan -out=...; exit 2 = changes (not an error)
        let st := emitEv st .tfPlan
        let st := emitLog st w.mainOut
        match w.planOutcome with
        | .planErr e =>
          if job.ignoreError then (st, some ⟨true, 0⟩, none)
          else (st, some ⟨false, 1⟩, some ("error running " ++ job.type ++ ": " ++ e))
        | .changes => (st, some ⟨true, 2⟩, none)
        | .noChanges => (st, some ⟨true, 0⟩, none)
      else if job.type = "terraformApply" then
        -- executeApply: plan-file apply when present, else fresh apply
        let st := emitEv st .tfApply
        let st := emitLog st w.mainOut
        match w.applyErr with
        | some e =>
          if job.ignoreError then (st, some ⟨true, 0⟩, none)
          else (st, some ⟨false, 1⟩, some ("error running " ++ job.type ++ ": " ++ e))
        | none => (st, some ⟨true, 0⟩, none)
      else if job.type = "terraformDestroy" then
        let st := emitEv st .tfDestroy
        let st := emitLog st w.mainOut
        match w.destroyErr with
        | some e =>
          if job.ignoreError then (st, some ⟨true, 0⟩, none)
          else (st, some ⟨false, 1⟩, some ("error running " ++ job.type ++ ": " ++ e))
        | none => (st, some ⟨true, 0⟩, none)
      else (st, none, some ("unknown job type: " ++ job.type))

/-- Go `result != nil && result.ExitCode == 2`. -/
def resultHasExit2 : Option ExecutionResult → Bool
  | some r => r.exitCode == 2
  | none => false

/-! ## Job processor (`core.JobProcessor`) -/

/-- `JobProcessor.uploadStateAndOutput`: upload state and plan files when
present; for apply/destroy also state JSON, raw state, outputs, and create a
history record. -/
def uploadStateAndOutput (w : ExecWorld) (job : TerraformJob) (st : ExecState) :
    ExecState :=
  let st := if w.hasStateFile then
      emitEv st (.upload ("organization/" ++ job.organizationId ++ "/workspace/" ++
        job.workspaceId ++ "/state/terraform.tfstate"))
    else st
  let st := if w.hasPlanFile then
      emitEv st (.upload ("organization/" ++ job.organizationId ++ "/workspace/" ++
        job.workspaceId ++ "/job/" ++ job.jobId ++ "/step/" ++ job.stepId ++
        "/terraformLibrary.tfplan"))
    else st
  if job.type = "terraformApply" || job.type = "terraformDestroy" then
    match w.install2 with
    | .error _ => st
    | .ok _ =>
      let st := match w.showRes with
        | .ok _ => emitEv st (.upload ("tfstate/" ++ job.organizationId ++ "/" ++
            job.workspaceId ++ "/state/state.json"))
        | .error _ => st
      let st := match w.pullRes with
        | .ok _ => emitEv st (.upload ("tfstate/" ++ job.organizationId ++ "/" ++
            job.workspaceId ++ "/state/state.raw.json"))
        | .error _ => st
      let tfOut := match w.outputRes with
        | .ok o => o
        | .error _ => job.terraformOutput
      let st := if tfOut ≠ "" then
          emitEv st (.upload ("tfoutput/" ++ job.organizationId ++ "/" ++
            job.jobId ++ "/" ++ job.stepId ++ ".tfoutput"))
        else st
      emitEv st .history
  else st

/-- `JobProcessor.executeTerraform`: install the binary, write the backend
override and credentials, run `beforeInit` scripts, run the IaC command,
then report failure (`SetCompleted(false)`, after `onFailure` scripts) or
success (`SetPending` on a plan with exit code 2, else
`SetCompleted(true)`), uploading artifacts on the success path. -/
def executeTerraform (w : ExecWorld) (job : TerraformJob) (st : ExecState) :
    ExecState × Option String :=
  match w.installRes with
  | .error e =>
    (st, some ("failed to install terraform " ++ job.terraformVersion ++ ": " ++ e))
  | .ok _ =>
  match w.overrideErr with
  | some e => (st, some ("failed to generate backend override: " ++ e))
  | none =>
  match w.credsErr with
  | some e => (st, some ("failed to generate terraform credentials: " ++ e))
  | none =>
    let r1 := executePhase w.scriptOk w.scriptOut job.commandList "beforeInit" st
    match r1.2 with
    | some e => (r1.1, some ("beforeInit scripts failed: " ++ e))
    | none =>
      let r2 := tfExecute w job r1.1
      match r2.2.2 with
      | some e =>
        let r3 := executePhase w.scriptOk w.scriptOut job.commandList "onFailure" r2.1
        let output := r3.1.buf ++ "\nError: " ++ e
        (emitEv r3.1 (.completed false output), some e)
      | none =>
        let r3 := executePhase w.scriptOk w.scriptOut job.commandList "after" r2.1
        let st3 := uploadStateAndOutput w job r3.1
        if job.type = "terraformPlan" && resultHasExit2 r2.2.1 then
          (emitEv st3 (.pending st3.buf), none)
        else
          (emitEv st3 (.completed true st3.buf), none)

/-- `JobProcessor.ProcessJob`: `SetRunning`, workspace setup (reporting
`SetCompleted(false)` and returning on failure), commit-id update, prior
state download (and saved-plan download for apply), then dispatch on the job
type. -/
def processJob (w : ExecWorld) (job : TerraformJob) : ExecState × Option String :=
  -- Step 1: nil-map normalization has no observable effect here.
  let st : ExecState := {}
  let st := emitEv st .running
  -- Step 2: streamer selection (Redis/console) adds no events.
  match w.wsSetup with
  | some e => (emitEv st (.completed false e), some ("failed to setup workspace: " ++ e))
  | none =>
    let st := if w.commitId ≠ "" then emitEv st (.commitUpdate w.commitId) else st
    let st := emitEv st (.download ("organization/" ++ job.organizationId ++
      "/workspace/" ++ job.workspaceId ++ "/state/terraform.tfstate"))
    let st := if job.type = "terraformApply" then
        emitEv st (.download ("organization/" ++ job.organizationId ++ "/workspace/" ++
          job.workspaceId ++ "/job/" ++ job.jobId ++ "/step/" ++ job.stepId ++
          "/terraformLibrary.tfplan"))
      else st
    if job.type = "terraformPlan" || job.type = "terraformApply" ||
        job.type = "terraformDestroy" then
      executeTerraform w job st
    else if job.type = "customScripts" || job.type = "approval" then
      let r := scriptExecute w.scriptOk w.scriptOut job.commandList st
      match r.2 with
      | some e => (emitEv r.1 (.completed false (r.1.buf ++ "\nError: " ++ e)), some e)
      | none => (emitEv r.1 (.completed true r.1.buf), none)
    else
      let e := "unknown job type: " ++ job.type
      (emitEv st (.completed false e), some e)

/-- Is this event one of the two terminal status reports? -/
def isTerminal : Event → Bool
  | .completed _ _ => true
  | .pending _ => true
  | _ => false

/-- Is this event a `SetRunning` call? -/
def isRunning : Event → Bool
  | .running => true
  | _ => false

/-! ## Helper lemmas about the script runner's trace -/

/-- Scripts started, in order, in a trace. -/
def scriptsOf (tr : List Event) : List Command :=
  tr.filterMap fun e => match e with
    | .script c => some c
    | _ => none

theorem scriptsOf_append (a b : List Event) :
    scriptsOf (a ++ b) = scriptsOf a ++ scriptsOf b := by
  simp [scriptsOf, List.filterMap_append]

/-- One `runCmds` pass executes the longest all-succeeding front of the
(already sorted) list plus the first failing command, and errors exactly
when some command fails. -/
theorem runCmds_spec (ok : Command → Bool) (out : Command → String)
    (phase : String) (cs : List Command) : ∀ st : ExecState,
    scriptsOf (runCmds ok out phase st cs).1.trace
      = scriptsOf st.trace ++ (cs.takeWhile ok ++ (cs.dropWhile ok).take 1)
    ∧ ((runCmds ok out phase st cs).2 = none ↔ ∀ c ∈ cs, ok c = true) := by
  induction cs with
  | nil => intro st; simp [runCmds]
  | cons c rest ih =>
    intro st
    by_cases hc : ok c = true
    · have hrun : runCmds ok out phase st (c :: rest)
          = runCmds ok out phase
              (emitLog (emitEv (if c.verbose then
                emitLog st ("\n--- Running " ++ phase ++ " script (priority: " ++
                  toString c.priority ++ ") ---\n") else st) (.script c)) (out c)) rest := by
        simp only [runCmds, hc, if_true]
      set st1 := emitLog (emitEv (if c.verbose then
        emitLog st ("\n--- Running " ++ phase ++ " script (priority: " ++
          toString c.priority ++ ") ---\n") else st) (.script c)) (out c) with hst1
      have hscripts : scriptsOf st1.trace = scriptsOf st.trace ++ [c] := by
        by_cases hv : c.verbose <;>
          simp [hst1, emitLog, emitEv, scriptsOf_append, hv, scriptsOf]
      obtain ⟨ihs, ihe⟩ := ih st1
      refine ⟨?_, ?_⟩
      · rw [hrun, ihs, hscripts]
        simp [List.takeWhile_cons, List.dropWhile_cons, hc]
      · rw [hrun]
        rw [ihe]
        simp [hc]
    · have hrun : runCmds ok out phase st (c :: rest)
          = (emitLog (emitEv (if c.verbose then
                emitLog st ("\n--- Running " ++ phase ++ " script (priority: " ++
                  toString c.priority ++ ") ---\n") else st) (.script c)) (out c),
             some (phase ++ " script execution failed")) := by
        simp only [runCmds, hc]
        simp [Bool.not_eq_true] at hc
        simp [hc]
      refine ⟨?_, ?_⟩
      · rw [hrun]
        have : scriptsOf (emitLog (emitEv (if c.verbose then
            emitLog st ("\n--- Running " ++ phase ++ " script (priority: " ++
              toString c.priority ++ ") ---\n") else st) (.script c)) (out c)).trace
            = scriptsOf st.trace ++ [c] := by
          by_cases hv : c.verbose <;>
            simp [emitLog, emitEv, scriptsOf_append, hv, scriptsOf]
        rw [this]
        simp [List.takeWhile_cons, List.dropWhile_cons, hc]
      · rw [hrun]
        constructor
        · intro h; cases h
        · intro h
          exact absurd (h c (by simp)) hc

/-- If every script exits zero, a phase run reports no error. -/
theorem executePhase_ok_of_all (ok : Command → Bool) (out : Command → String)
    (cmds : List Command) (phase : String) (st : ExecState)
    (h : ∀ c, ok c = true) :
    (executePhase ok out cmds phase st).2 = none := by
  unfold executePhase
  by_cases h0 : (filterByPhase cmds phase).length = 0
  · simp [h0]
  · simp only [h0, if_neg h0]
    exact (runCmds_spec ok out phase (sortSlice (filterByPhase cmds phase)) st).2.mpr
      fun c _ => h c

/-! Terminal-status filters: none of the builders below ever emit a
`SetCompleted`/`SetPending` event. -/

theorem filter_term_emitEv (st : ExecState) (e : Event)
    (he : isTerminal e = false) :
    (emitEv st e).trace.filter isTerminal = st.trace.filter isTerminal := by
  simp [emitEv, List.filter_append, he]

theorem filter_term_emitLog (st : ExecState) (s : String) :
    (emitLog st s).trace.filter isTerminal = st.trace.filter isTerminal := by
  simp [emitLog, List.filter_append, isTerminal]

theorem filter_term_runCmds (ok : Command → Bool) (out : Command → String)
    (phase : String) (cs : List Command) : ∀ st : ExecState,
    (runCmds ok out phase st cs).1.trace.filter isTerminal
      = st.trace.filter isTerminal := by
  induction cs with
  | nil => intro st; simp [runCmds]
  | cons c rest ih =>
    intro st
    have hbase : ∀ st' : ExecState,
        (emitLog (emitEv st' (.script c)) (out c)).trace.filter isTerminal
          = st'.trace.filter isTerminal := by
      intro st'
      rw [filter_term_emitLog, filter_term_emitEv _ _ (by simp [isTerminal])]
    by_cases hc : ok c = true <;> by_cases hv : c.verbose <;>
      simp only [runCmds, hc, hv, if_true, if_false, Bool.false_eq_true] <;>
      first
        | (rw [ih]; rw [hbase, filter_term_emitLog])
        | (rw [ih]; rw [hbase])
        | (rw [hbase, filter_term_emitLog])
        | (rw [hbase])

theorem filter_term_executePhase (ok : Command → Bool) (out : Command → String)
    (cmds : List Command) (phase : String) (st : ExecState) :
    (executePhase ok out cmds phase st).1.trace.filter isTerminal
      = st.trace.filter isTerminal := by
  unfold executePhase
  by_cases h0 : (filterByPhase cmds phase).length = 0
  · simp [h0]
  · simp only [h0, if_neg h0]
    exact filter_term_runCmds ok out phase _ st

theorem filter_term_uploadStateAndOutput (w : ExecWorld) (job : TerraformJob)
    (st : ExecState) :
    (uploadStateAndOutput w job st).trace.filter isTerminal
      = st.trace.filter isTerminal := by
  unfold uploadStateAndOutput emitEv
  dsimp only
  repeat' split
  all_goals simp [List.filter_append, isTerminal]

theorem filter_term_tfExecute (w : ExecWorld) (job : TerraformJob)
    (st : ExecState) :
    (tfExecute w job st).1.trace.filter isTerminal
      = st.trace.filter isTerminal := by
  unfold tfExecute emitEv emitLog
  repeat' split
  all_goals simp [List.filter_append, isTerminal]

/-! ## C6: ExecutePhase ordering -/

/-- Helper for building script commands in examples. -/
def mkAfterCmd (p : Int) (s : String) : Command :=
  { priority := p, script := s, after := true }

/-- Thirteen commands for the `after` phase: the first has priority 1, the
rest priority 0.  On a 13-element slice Go's `sort.Slice` leaves the
insertion-sort regime, and its first quicksort partition moves the middle
element `c6` in front of the equal-priority commands `c1`–`c5`. -/
def c6Cmds : List Command :=
  [mkAfterCmd 1 "c0", mkAfterCmd 0 "c1", mkAfterCmd 0 "c2", mkAfterCmd 0 "c3",
   mkAfterCmd 0 "c4", mkAfterCmd 0 "c5", mkAfterCmd 0 "c6", mkAfterCmd 0 "c7",
   mkAfterCmd 0 "c8", mkAfterCmd 0 "c9", mkAfterCmd 0 "c10", mkAfterCmd 0 "c11",
   mkAfterCmd 0 "c12"]

/-- C6 (counterexample): with 13 matching commands, all of which succeed,
`ExecutePhase` does **not** run them in `(priority ASC, stable index)`
order: Go's `sort.Slice` is pdqsort, which is unstable beyond 12 elements.
The executed order here is `c6, c1..c5, c7..c12, c0` instead of the
stable `c1..c12, c0`. -/
theorem c6_executePhase_unstable_at13 :
    scriptsOf (executePhase (fun _ => true) (fun _ => "") c6Cmds "after"
        ⟨[], ""⟩).1.trace
      ≠ stableSortByPriority (filterByPhase c6Cmds "after") := by
  decide

/-- C6 (amended): for every command list and phase, provided **at most 12
commands match the phase**, `ExecutePhase` runs exactly the matching
commands in ascending priority order with ties broken by the original
(stable) list order — it executes the longest all-succeeding front of that
order plus the first failing command — and it reports an error exactly when
some command of the phase exits non-zero (aborting the rest).  Beyond 12
matching commands the tie order is that of Go's unstable `sort.Slice`
(see the counterexample). -/
theorem c6_executePhase_stable_upTo12
    (ok : Command → Bool) (out : Command → String) (cmds : List Command)
    (phase : String) (h : (filterByPhase cmds phase).length ≤ 12) :
    scriptsOf (executePhase ok out cmds phase ⟨[], ""⟩).1.trace
      = (stableSortByPriority (filterByPhase cmds phase)).takeWhile ok
        ++ ((stableSortByPriority (filterByPhase cmds phase)).dropWhile ok).take 1
    ∧ ((executePhase ok out cmds phase ⟨[], ""⟩).2 = none
        ↔ ∀ c ∈ stableSortByPriority (filterByPhase cmds phase), ok c = true) := by
  unfold executePhase
  by_cases h0 : (filterByPhase cmds phase).length = 0
  · have hnil : filterByPhase cmds phase = [] := List.length_eq_zero.mp h0
    simp [h0, hnil, stableSortByPriority, scriptsOf]
  · simp only [h0, if_neg h0]
    rw [sortSlice_short _ h]
    have hspec := runCmds_spec ok out phase
      (stableSortByPriority (filterByPhase cmds phase)) ⟨[], ""⟩
    simpa [scriptsOf] using hspec

/-- Three commands with an equal-priority tie, used as the C6 witness. -/
def c6wCmds : List Command :=
  [mkAfterCmd 5 "w0", mkAfterCmd 1 "w1", mkAfterCmd 1 "w2"]

theorem c6_executePhase_stable_upTo12_witness :
    (filterByPhase c6wCmds "after").length ≤ 12
    ∧ (scriptsOf (executePhase (fun _ => true) (fun _ => "") c6wCmds "after"
          ⟨[], ""⟩).1.trace
        = (stableSortByPriority (filterByPhase c6wCmds "after")).takeWhile (fun _ => true)
          ++ ((stableSortByPriority (filterByPhase c6wCmds "after")).dropWhile
              (fun _ => true)).take 1
      ∧ ((executePhase (fun _ => true) (fun _ => "") c6wCmds "after" ⟨[], ""⟩).2 = none
          ↔ ∀ c ∈ stableSortByPriority (filterByPhase c6wCmds "after"),
              (fun _ => true) c = true)) :=
  ⟨by decide,
   c6_executePhase_stable_upTo12 (fun _ => true) (fun _ => "") c6wCmds "after" (by decide)⟩

/-! ## C1: status reports issued by one `ProcessJob` run -/

/-- A plan job whose binary install fails (e.g. an invalid version). -/
def c1Job : TerraformJob :=
  { type := "terraformPlan", organizationId := "org", workspaceId := "ws",
    jobId := "1", stepId := "s1", terraformVersion := "not-a-version" }

/-- World for `c1Job`: workspace setup succeeds, `VersionManager.Install`
fails. -/
def c1World : ExecWorld :=
  { installRes := .error "invalid terraform version" }

/-- C1 (failing input): for a plan job whose binary install fails,
`ProcessJob` issues its one `SetRunning` call but **no** terminal report at
all — `executeTerraform` returns the install error before any
`SetCompleted`/`SetPending`, and `ProcessJob`'s terraform branch never
reports on that path.  This contradicts the claimed invariant of exactly
one terminal report per run; the job is left in `running` forever. -/
theorem c1_install_failure_no_terminal_report :
    (processJob c1World c1Job).1.trace.countP (fun e => isRunning e) = 1
    ∧ (processJob c1World c1Job).1.trace.countP (fun e => isTerminal e) = 0
    ∧ (processJob c1World c1Job).2
        = some ("failed to install terraform not-a-version: invalid terraform version") := by
  decide

/-! ## C5: the `before` phase is never executed -/

/-- A command that asks to run between `init` and the main command. -/
def c5BeforeCmd : Command :=
  { priority := 10, script := "echo between init and plan", before := true }

/-- A plan job carrying only the `before` command. -/
def c5Job : TerraformJob :=
  { type := "terraformPlan", commandList := [c5BeforeCmd] }

/-- World for `c5Job`: every step succeeds (`plan` reports no changes). -/
def c5World : ExecWorld := {}

/-- C5 (failing input): on a fully successful plan run of a job whose
command list holds a `before=true` command, no script is executed at all:
`executeTerraform` runs only the `beforeInit` phase before the IaC command
and the `after`/`onFailure` phases following it — `ExecutePhase("before")`
is never invoked anywhere, so `before` commands are silently dropped
(contradicting the `model.Command` field documentation
"Run after init, before plan/apply"). -/
theorem c5_before_command_never_runs :
    Event.script c5BeforeCmd ∉ (processJob c5World c5Job).1.trace
    ∧ scriptsOf (processJob c5World c5Job).1.trace = []
    ∧ (processJob c5World c5Job).2 = none
    ∧ (processJob c5World c5Job).1.trace.filter isTerminal
        = [Event.completed true ""] := by
  decide

/-! ## Characterisations of `executeTerraform` under a reachable pipeline

The hypotheses of the lemmas below state that the run reaches the IaC
command: workspace setup, binary install, backend override, credentials and
every user script succeed, tfexec setup and `init` succeed. -/

theorem executeTerraform_plan_changes (w : ExecWorld) (job : TerraformJob) (p : String)
    (hi : w.installRes = .ok p) (hov : w.overrideErr = none) (hcr : w.credsErr = none)
    (hok : ∀ c, w.scriptOk c = true) (hts : w.tfSetupErr = none) (hini : w.initErr = none)
    (hpl : job.type = "terraformPlan") (hch : w.planOutcome = .changes) (st : ExecState) :
    (executeTerraform w job st).1.trace.filter isTerminal
      = st.trace.filter isTerminal ++ [Event.pending (executeTerraform w job st).1.buf]
    ∧ (executeTerraform w job st).2 = none := by
  have htf : ∀ st' : ExecState,
      (tfExecute w job st').2 = (some ⟨true, 2⟩, none) := by
    intro st'
    simp [tfExecute, hts, hini, hpl, hch]
  have hbi := executePhase_ok_of_all w.scriptOk w.scriptOut job.commandList "beforeInit" st hok
  simp only [executeTerraform, hi, hov, hcr, hbi, htf]
  simp [hpl, resultHasExit2, emitEv, List.filter_append, isTerminal,
    filter_term_uploadStateAndOutput, filter_term_executePhase, filter_term_tfExecute]

theorem executeTerraform_success_completed (w : ExecWorld) (job : TerraformJob) (p : String)
    (hi : w.installRes = .ok p) (hov : w.overrideErr = none) (hcr : w.credsErr = none)
    (hok : ∀ c, w.scriptOk c = true) (hts : w.tfSetupErr = none) (hini : w.initErr = none)
    (hsucc : (job.type = "terraformPlan" ∧ w.planOutcome = .noChanges)
           ∨ (job.type = "terraformApply" ∧ w.applyErr = none)
           ∨ (job.type = "terraformDestroy" ∧ w.destroyErr = none)) (st : ExecState) :
    (executeTerraform w job st).1.trace.filter isTerminal
      = st.trace.filter isTerminal
        ++ [Event.completed true (executeTerraform w job st).1.buf]
    ∧ (executeTerraform w job st).2 = none := by
  have hbi := executePhase_ok_of_all w.scriptOk w.scriptOut job.commandList "beforeInit" st hok
  rcases hsucc with ⟨hty, hmain⟩ | ⟨hty, hmain⟩ | ⟨hty, hmain⟩ <;>
  · have htf : ∀ st' : ExecState,
        (tfExecute w job st').2 = (some ⟨true, 0⟩, none) := by
      intro st'
      simp [tfExecute, hts, hini, hty, hmain]
    simp only [executeTerraform, hi, hov, hcr, hbi, htf]
    simp [hty, resultHasExit2, emitEv, List.filter_append, isTerminal,
      filter_term_uploadStateAndOutput, filter_term_executePhase, filter_term_tfExecute]

theorem executeTerraform_mainfail (w : ExecWorld) (job : TerraformJob) (p e : String)
    (hi : w.installRes = .ok p) (hov : w.overrideErr = none) (hcr : w.credsErr = none)
    (hok : ∀ c, w.scriptOk c = true) (hts : w.tfSetupErr = none) (hini : w.initErr = none)
    (hig : job.ignoreError = false)
    (hfail : (job.type = "terraformPlan" ∧ w.planOutcome = .planErr e)
           ∨ (job.type = "terraformApply" ∧ w.applyErr = some e)
           ∨ (job.type = "terraformDestroy" ∧ w.destroyErr = some e)) (st : ExecState) :
    (executeTerraform w job st).1.trace.filter isTerminal
      = st.trace.filter isTerminal
        ++ [Event.completed false ((executeTerraform w job st).1.buf
              ++ "\nError: " ++ ("error running " ++ job.type ++ ": " ++ e))]
    ∧ (executeTerraform w job st).2 = some ("error running " ++ job.type ++ ": " ++ e) := by
  have hbi := executePhase_ok_of_all w.scriptOk w.scriptOut job.commandList "beforeInit" st hok
  rcases hfail with ⟨hty, hmain⟩ | ⟨hty, hmain⟩ | ⟨hty, hmain⟩ <;>
  · have htf : ∀ st' : ExecState,
        (tfExecute w job st').2
          = (some ⟨false, 1⟩, some ("error running " ++ job.type ++ ": " ++ e)) := by
      intro st'
      simp [tfExecute, hts, hini, hty, hmain, hig]
    simp only [executeTerraform, hi, hov, hcr, hbi, htf]
    simp [emitEv, List.filter_append, isTerminal, String.append_assoc,
      filter_term_executePhase, filter_term_tfExecute]

theorem executeTerraform_mainfail_ignored (w : ExecWorld) (job : TerraformJob) (p e : String)
    (hi : w.installRes = .ok p) (hov : w.overrideErr = none) (hcr : w.credsErr = none)
    (hok : ∀ c, w.scriptOk c = true) (hts : w.tfSetupErr = none) (hini : w.initErr = none)
    (hig : job.ignoreError = true)
    (hfail : (job.type = "terraformPlan" ∧ w.planOutcome = .planErr e)
           ∨ (job.type = "terraformApply" ∧ w.applyErr = some e)
           ∨ (job.type = "terraformDestroy" ∧ w.destroyErr = some e)) (st : ExecState) :
    (tfExecute w job st).2 = (some ⟨true, 0⟩, none)
    ∧ (executeTerraform w job st).1.trace.filter isTerminal
      = st.trace.filter isTerminal
        ++ [Event.completed true (executeTerraform w job st).1.buf]
    ∧ (executeTerraform w job st).2 = none := by
  have hbi := executePhase_ok_of_all w.scriptOk w.scriptOut job.commandList "beforeInit" st hok
  rcases hfail with ⟨hty, hmain⟩ | ⟨hty, hmain⟩ | ⟨hty, hmain⟩ <;>
  · have htf : ∀ st' : ExecState,
        (tfExecute w job st').2 = (some ⟨true, 0⟩, none) := by
      intro st'
      simp [tfExecute, hts, hini, hty, hmain, hig]
    refine ⟨htf st, ?_⟩
    simp only [executeTerraform, hi, hov, hcr, hbi, htf]
    simp [hty, resultHasExit2, emitEv, List.filter_append, isTerminal,
      filter_term_uploadStateAndOutput, filter_term_executePhase, filter_term_tfExecute]

/-- For a plan/apply/destroy job whose workspace setup succeeds,
`ProcessJob` is `executeTerraform` run from a pre-dispatch state that holds
no terminal report. -/
theorem processJob_tf_branch (w : ExecWorld) (job : TerraformJob)
    (hws : w.wsSetup = none)
    (hty : job.type = "terraformPlan" ∨ job.type = "terraformApply"
         ∨ job.type = "terraformDestroy") :
    ∃ st0 : ExecState, processJob w job = executeTerraform w job st0
      ∧ st0.trace.filter isTerminal = [] := by
  rcases hty with hty | hty | hty <;>
  · simp only [processJob, hws, hty]
    norm_num
    refine ⟨_, rfl, ?_⟩
    repeat' split
    all_goals simp [emitEv, isTerminal, List.filter_append]

/-! ## C3: plan exit code 2 → SetPending; other success → SetCompleted(true) -/

/-- C3: for every plan/apply/destroy job whose run reaches the IaC command
(workspace, install, override, credentials, scripts, tfexec setup and
`init` all succeed): a plan whose `terraform plan` reports detailed exit
code 2 yields the successful result `{Success: true, ExitCode: 2}` — not an
error — and the single terminal report is `SetPending` carrying the
captured log buffer; every other successfully executed job gets the single
terminal report `SetCompleted(success=true)` with the captured buffer, and
`ProcessJob` returns no error. -/
theorem c3_plan_exit2_pending_success_completed
    (w : ExecWorld) (job : TerraformJob) (p : String)
    (hws : w.wsSetup = none) (hi : w.installRes = .ok p)
    (hov : w.overrideErr = none) (hcr : w.credsErr = none)
    (hok : ∀ c, w.scriptOk c = true)
    (hts : w.tfSetupErr = none) (hini : w.initErr = none) :
    (job.type = "terraformPlan" → w.planOutcome = .changes →
      (tfExecute w job ⟨[], ""⟩).2 = (some ⟨true, 2⟩, none)
      ∧ (processJob w job).1.trace.filter isTerminal
          = [Event.pending (processJob w job).1.buf]
      ∧ (processJob w job).2 = none)
    ∧ (((job.type = "terraformPlan" ∧ w.planOutcome = .noChanges)
        ∨ (job.type = "terraformApply" ∧ w.applyErr = none)
        ∨ (job.type = "terraformDestroy" ∧ w.destroyErr = none)) →
      (processJob w job).1.trace.filter isTerminal
          = [Event.completed true (processJob w job).1.buf]
      ∧ (processJob w job).2 = none) := by
  constructor
  · intro hty hch
    obtain ⟨st0, hpj, h0⟩ := processJob_tf_branch w job hws (Or.inl hty)
    have htf2 : (tfExecute w job ⟨[], ""⟩).2 = (some ⟨true, 2⟩, none) := by
      simp [tfExecute, hts, hini, hty, hch]
    obtain ⟨hfil, herr⟩ :=
      executeTerraform_plan_changes w job p hi hov hcr hok hts hini hty hch st0
    rw [hpj]
    exact ⟨htf2, by rw [hfil, h0]; simp, herr⟩
  · intro hsucc
    have hty3 : job.type = "terraformPlan" ∨ job.type = "terraformApply"
        ∨ job.type = "terraformDestroy" := by
      rcases hsucc with ⟨h, _⟩ | ⟨h, _⟩ | ⟨h, _⟩
      · exact Or.inl h
      · exact Or.inr (Or.inl h)
      · exact Or.inr (Or.inr h)
    obtain ⟨st0, hpj, h0⟩ := processJob_tf_branch w job hws hty3
    obtain ⟨hfil, herr⟩ :=
      executeTerraform_success_completed w job p hi hov hcr hok hts hini hsucc st0
    rw [hpj]
    exact ⟨by rw [hfil, h0]; simp, herr⟩

/-- World for the C3 witness: a plan with changes (detailed exit code 2). -/
def c3wWorld : ExecWorld := { planOutcome := .changes }

/-- Job for the C3 witness. -/
def c3wJob : TerraformJob := { type := "terraformPlan" }

theorem c3_plan_exit2_pending_success_completed_witness :
    (c3wWorld.wsSetup = none ∧ (∀ c, c3wWorld.scriptOk c = true)
      ∧ c3wJob.type = "terraformPlan" ∧ c3wWorld.planOutcome = .changes)
    ∧ (tfExecute c3wWorld c3wJob ⟨[], ""⟩).2 = (some ⟨true, 2⟩, none)
    ∧ (processJob c3wWorld c3wJob).1.trace.filter isTerminal
        = [Event.pending (processJob c3wWorld c3wJob).1.buf]
    ∧ (processJob c3wWorld c3wJob).2 = none :=
  ⟨⟨rfl, fun _ => rfl, rfl, rfl⟩,
   (c3_plan_exit2_pending_success_completed c3wWorld c3wJob "/cache/terraform"
      rfl rfl rfl rfl (fun _ => rfl) rfl rfl).1 rfl rfl⟩

/-! ## C4: the `ignoreError` coercion -/

/-- Job for the C4 counterexample: a plan with `ignoreError=true`. -/
def c4cJob : TerraformJob := { type := "terraformPlan", ignoreError := true }

/-- World for the C4 counterexample: `terraform init` fails. -/
def c4cWorld : ExecWorld := { initErr := some "exit status 1" }

/-- C4 (counterexample): with `ignoreError=true`, a failure of the IaC
**init** step is *not* coerced to a successful result with exit code 0:
`Execute` returns `(nil, error)` before the `IgnoreError` check is ever
reached, the job reports `SetCompleted(success=false)` and `ProcessJob`
returns the error. -/
theorem c4_init_failure_not_coerced :
    (tfExecute c4cWorld c4cJob ⟨[], ""⟩).2.1 = none
    ∧ (tfExecute c4cWorld c4cJob ⟨[], ""⟩).2.2
        = some "error running Init: exit status 1"
    ∧ (processJob c4cWorld c4cJob).1.trace.filter isTerminal
        = [Event.completed false "\nError: error running Init: exit status 1"]
    ∧ (processJob c4cWorld c4cJob).2 = some "error running Init: exit status 1" := by
  decide

/-- C4 (amended): for every plan/apply/destroy job whose run reaches the
main IaC command (init included among the succeeding steps), a failure of
the plan, apply or destroy step is coerced under `ignoreError=true` to the
successful result `{Success: true, ExitCode: 0}` and the job takes the
success path (`SetCompleted(success=true)`, no error); with
`ignoreError=false` the failure is fatal: the job reports
`SetCompleted(success=false)` with the error appended to the log buffer and
`ProcessJob` propagates the error.  (A failure of the IaC *init* step is
fatal regardless of `ignoreError` — see the counterexample.) -/
theorem c4_ignoreError_coercion_amended
    (w : ExecWorld) (job : TerraformJob) (p e : String)
    (hws : w.wsSetup = none) (hi : w.installRes = .ok p)
    (hov : w.overrideErr = none) (hcr : w.credsErr = none)
    (hok : ∀ c, w.scriptOk c = true)
    (hts : w.tfSetupErr = none) (hini : w.initErr = none)
    (hfail : (job.type = "terraformPlan" ∧ w.planOutcome = .planErr e)
           ∨ (job.type = "terraformApply" ∧ w.applyErr = some e)
           ∨ (job.type = "terraformDestroy" ∧ w.destroyErr = some e)) :
    (job.ignoreError = true →
      (tfExecute w job ⟨[], ""⟩).2 = (some ⟨true, 0⟩, none)
      ∧ (processJob w job).1.trace.filter isTerminal
          = [Event.completed true (processJob w job).1.buf]
      ∧ (processJob w job).2 = none)
    ∧ (job.ignoreError = false →
      (processJob w job).1.trace.filter isTerminal
          = [Event.completed false ((processJob w job).1.buf
              ++ "\nError: " ++ ("error running " ++ job.type ++ ": " ++ e))]
      ∧ (processJob w job).2 = some ("error running " ++ job.type ++ ": " ++ e)) := by
  have hty3 : job.type = "terraformPlan" ∨ job.type = "terraformApply"
      ∨ job.type = "terraformDestroy" := by
    rcases hfail with ⟨h, _⟩ | ⟨h, _⟩ | ⟨h, _⟩
    · exact Or.inl h
    · exact Or.inr (Or.inl h)
    · exact Or.inr (Or.inr h)
  obtain ⟨st0, hpj, h0⟩ := processJob_tf_branch w job hws hty3
  constructor
  · intro hig
    obtain ⟨htf, -⟩ :=
      executeTerraform_mainfail_ignored w job p e hi hov hcr hok hts hini hig hfail ⟨[], ""⟩
    obtain ⟨hfil0, herr0⟩ :=
      (executeTerraform_mainfail_ignored w job p e hi hov hcr hok hts hini hig hfail st0).2
    rw [hpj]
    exact ⟨htf, by rw [hfil0, h0]; simp, herr0⟩
  · intro hig
    obtain ⟨hfil0, herr0⟩ :=
      executeTerraform_mainfail w job p e hi hov hcr hok hts hini hig hfail st0
    rw [hpj]
    exact ⟨by rw [hfil0, h0]; simp, herr0⟩

/-- Job for the C4 witness: apply with `ignoreError=true`. -/
def c4wJob : TerraformJob := { type := "terraformApply", ignoreError := true }

/-- World for the C4 witness: the apply subprocess fails. -/
def c4wWorld : ExecWorld := { applyErr := some "exit status 1" }

theorem c4_ignoreError_coercion_amended_witness :
    (c4wWorld.wsSetup = none ∧ (∀ c, c4wWorld.scriptOk c = true)
      ∧ c4wJob.type = "terraformApply" ∧ c4wWorld.applyErr = some "exit status 1"
      ∧ c4wJob.ignoreError = true)
    ∧ (tfExecute c4wWorld c4wJob ⟨[], ""⟩).2 = (some ⟨true, 0⟩, none)
    ∧ (processJob c4wWorld c4wJob).1.trace.filter isTerminal
        = [Event.completed true (processJob c4wWorld c4wJob).1.buf]
    ∧ (processJob c4wWorld c4wJob).2 = none :=
  ⟨⟨rfl, fun _ => rfl, rfl, rfl, rfl⟩,
   (c4_ignoreError_coercion_amended c4wWorld c4wJob "/cache/terraform" "exit status 1"
      rfl rfl rfl rfl (fun _ => rfl) rfl rfl
      (Or.inr (Or.inl ⟨rfl, rfl⟩))).1 rfl⟩

/-! ## C7: the Redis log streamer (`logs/redis.go`, `RedisStreamer`)

`Write` appends to an internal `strings.Builder` buffer and then repeatedly
peels the first `\n`-terminated line off the buffer, XADDing one stream
entry `{jobId, stepId, lineNumber, output=line}` per line with
`lineNumber := r.lineNumber.Add(1)`.  `Close` flushes the trailing partial
line as one more numbered entry, XADDs a sentinel `{done: "true"}` and sets
a 5-minute TTL (300 s) on the stream key.  The `jobId`/`stepId` fields are
constant per streamer and elided.  The counter is an `atomic.Int32`, so
`Add(1)` wraps two's-complement at 2^31; `int32wrap`/`bumpLine` model
exactly that. -/

/-- One XADDed entry of the per-job Redis stream. -/
inductive RedisEntry where
  | line (num : Int) (output : String)
  | done
  deriving DecidableEq, Repr

/-- Two's-complement wrap-around of Go's `int32`
(2147483648 = 2^31, 4294967296 = 2^32). -/
def int32wrap (n : Int) : Int :=
  (n + 2147483648) % 4294967296 - 2147483648

/-- `r.lineNumber.Add(1)` on the `atomic.Int32` counter: increment with
`int32` wrap-around, returning the new value. -/
def bumpLine (n : Int) : Int := int32wrap (n + 1)

/-- `k` consecutive `Add(1)` calls. -/
def bumpLines (n : Int) : Nat → Int
  | 0 => n
  | k + 1 => bumpLines (bumpLine n) k

/-- State of one `RedisStreamer`. -/
structure RedisState where
  lineNumber : Int := 0
  buf : List Char := []
  entries : List RedisEntry := []
  ttlSeconds : Option Nat := none
  deriving DecidableEq, Repr

/-- Peel every complete (`\n`-terminated) line off the front of a buffer,
exactly as `Write`'s `strings.IndexByte`/split loop does, returning the
lines (without their newlines) and the trailing partial line. -/
def takeLines : List Char → List (List Char) × List Char
  | [] => ([], [])
  | c :: r =>
    if c = '\n' then
      let p := takeLines r
      ([] :: p.1, p.2)
    else
      let p := takeLines r
      match p.1 with
      | [] => ([], c :: p.2)
      | l :: ls => ((c :: l) :: ls, p.2)

/-- Number lines with the wrapping counter: each line gets
`lineNum := r.lineNumber.Add(1)`. -/
def numberLines (n : Int) : List (List Char) → List RedisEntry
  | [] => []
  | l :: ls => .line (bumpLine n) (String.mk l) :: numberLines (bumpLine n) ls

/-- `RedisStreamer.Write(p)`. -/
def redisWrite (st : RedisState) (p : String) : RedisState :=
  let res := takeLines (st.buf ++ p.data)
  { lineNumber := bumpLines st.lineNumber res.1.length,
    buf := res.2,
    entries := st.entries ++ numberLines st.lineNumber res.1,
    ttlSeconds := st.ttlSeconds }

/-- `RedisStreamer.Close()`: flush the partial line, emit the sentinel, set
the 5-minute TTL. -/
def redisClose (st : RedisState) : RedisState :=
  let st :=
    if st.buf.length ≠ 0 then
      { lineNumber := bumpLine st.lineNumber, buf := [],
        entries := st.entries ++ [.line (bumpLine st.lineNumber) (String.mk st.buf)],
        ttlSeconds := st.ttlSeconds }
    else st
  { st with entries := st.entries ++ [.done], ttlSeconds := some 300 }

/-- A whole streamer run: a sequence of `Write` calls followed by `Close`. -/
def runStreamer (writes : List String) : RedisState :=
  redisClose (writes.foldl redisWrite {})

/-- Concatenation of all written chunks. -/
def concatData : List String → List Char
  | [] => []
  | s :: ws => s.data ++ concatData ws

/-- The line numbers carried by a list of stream entries. -/
def lineNumsOf (es : List RedisEntry) : List Int :=
  es.filterMap fun e => match e with
    | .line n _ => some n
    | .done => none

/-- `Nat` line counts rendered as the `int32` values the stream carries. -/
def natsToInts : List Nat → List Int
  | [] => []
  | k :: l => (k : Int) :: natsToInts l

/-- The spec's expected numbering — plain consecutive integers with no
wrap-around — for comparison with the wrapping `numberLines`. -/
def plainNumberLines (n : Int) : List (List Char) → List RedisEntry
  | [] => []
  | l :: ls => .line (n + 1) (String.mk l) :: plainNumberLines (n + 1) ls

theorem takeLines_cons_nl (r : List Char) :
    takeLines ('\n' :: r) = ([] :: (takeLines r).1, (takeLines r).2) := by
  simp [takeLines]

theorem takeLines_cons_other (c : Char) (r : List Char) (hc : ¬c = '\n') :
    takeLines (c :: r)
      = (match (takeLines r).1 with
         | [] => ([], c :: (takeLines r).2)
         | l :: ls => ((c :: l) :: ls, (takeLines r).2)) := by
  simp [takeLines, hc]

theorem takeLines_append (a b : List Char) :
    takeLines (a ++ b)
      = ((takeLines a).1 ++ (takeLines ((takeLines a).2 ++ b)).1,
         (takeLines ((takeLines a).2 ++ b)).2) := by
  induction a with
  | nil => simp [takeLines]
  | cons c a' ih =>
    by_cases hc : c = '\n'
    · subst hc
      rw [List.cons_append, takeLines_cons_nl, takeLines_cons_nl, ih]
      simp
    · rw [List.cons_append, takeLines_cons_other c (a' ++ b) hc,
        takeLines_cons_other c a' hc, ih]
      cases h : (takeLines a').1 with
      | nil =>
        simp only [h, List.nil_append]
        rw [List.cons_append, takeLines_cons_other c ((takeLines a').2 ++ b) hc]
      | cons l ls =>
        simp only [h, List.cons_append]

theorem takeLines_prefix_le (a b : List Char) :
    (takeLines a).1.length ≤ (takeLines (a ++ b)).1.length := by
  rw [takeLines_append]
  simp

theorem int32wrap_small (m : Int) (h0 : 0 ≤ m) (h : m < 2147483648) :
    int32wrap m = m := by
  unfold int32wrap
  omega

theorem bumpLine_small (n : Int) (h0 : 0 ≤ n) (h : n + 1 < 2147483648) :
    bumpLine n = n + 1 := by
  unfold bumpLine
  exact int32wrap_small _ (by omega) (by omega)

theorem bumpLines_plain (k : Nat) : ∀ n : Int, 0 ≤ n → n + k < 2147483648 →
    bumpLines n k = n + k := by
  induction k with
  | zero => intro n _ _; simp [bumpLines]
  | succ k ih =>
    intro n h0 hb
    rw [show bumpLines n (k + 1) = bumpLines (bumpLine n) k from rfl,
      bumpLine_small n h0 (by push_cast at hb; omega),
      ih (n + 1) (by omega) (by push_cast at hb; push_cast; omega)]
    push_cast
    ring

theorem numberLines_append (n : Int) (xs ys : List (List Char)) :
    numberLines n (xs ++ ys)
      = numberLines n xs ++ numberLines (bumpLines n xs.length) ys := by
  induction xs generalizing n with
  | nil => simp [numberLines, bumpLines]
  | cons l ls ih =>
    show RedisEntry.line (bumpLine n) (String.mk l)
        :: numberLines (bumpLine n) (ls ++ ys)
      = RedisEntry.line (bumpLine n) (String.mk l)
        :: (numberLines (bumpLine n) ls
            ++ numberLines (bumpLines n (l :: ls).length) ys)
    rw [ih (bumpLine n)]
    rfl

theorem numberLines_plain (xs : List (List Char)) : ∀ L0 : Nat,
    L0 + xs.length < 2147483648 →
    numberLines (L0 : Int) xs = plainNumberLines (L0 : Int) xs := by
  induction xs with
  | nil => intro L0 _; rfl
  | cons l ls ih =>
    intro L0 hb
    have h1 : bumpLine (L0 : Int) = ((L0 + 1 : Nat) : Int) := by
      rw [bumpLine_small (L0 : Int) (Int.natCast_nonneg L0)
        (by push_cast; simp at hb; omega)]
      push_cast
      ring
    show RedisEntry.line (bumpLine (L0 : Int)) (String.mk l)
        :: numberLines (bumpLine (L0 : Int)) ls
      = RedisEntry.line ((L0 : Int) + 1) (String.mk l)
        :: plainNumberLines ((L0 : Int) + 1) ls
    rw [h1, ih (L0 + 1) (by simp at hb ⊢; omega)]
    push_cast
    rfl

/-- The streamer state reached after consuming `full`, before any wrap. -/
def invState (full : List Char) : RedisState :=
  { lineNumber := ((takeLines full).1.length : Int),
    buf := (takeLines full).2,
    entries := numberLines 0 (takeLines full).1,
    ttlSeconds := none }

theorem redisWrite_step (full : List Char) (p : String)
    (hb : (takeLines (full ++ p.data)).1.length < 2147483648) :
    redisWrite (invState full) p = invState (full ++ p.data) := by
  have htl := takeLines_append full p.data
  have hlen : (takeLines (full ++ p.data)).1.length
      = (takeLines full).1.length
        + (takeLines ((takeLines full).2 ++ p.data)).1.length := by
    rw [htl]
    simp
  rw [hlen] at hb
  unfold invState redisWrite
  rw [htl]
  simp only [RedisState.mk.injEq, and_true, true_and]
  refine ⟨?_, ?_⟩
  · rw [bumpLines_plain _ _ (Int.natCast_nonneg _) (by push_cast; omega)]
    push_cast
    simp
  · rw [numberLines_append,
      bumpLines_plain _ 0 le_rfl (by push_cast; omega)]
    simp

theorem redisWrites_inv (writes : List String) : ∀ full : List Char,
    (takeLines (full ++ concatData writes)).1.length < 2147483648 →
    writes.foldl redisWrite (invState full)
      = invState (full ++ concatData writes) := by
  induction writes with
  | nil => intro full _; simp [concatData]
  | cons wr ws ih =>
    intro full hb
    have hassoc : full ++ concatData (wr :: ws)
        = (full ++ wr.data) ++ concatData ws := by
      simp [concatData]
    have hb2 : (takeLines ((full ++ wr.data) ++ concatData ws)).1.length
        < 2147483648 := by
      rw [← hassoc]
      exact hb
    have hb1 : (takeLines (full ++ wr.data)).1.length < 2147483648 :=
      lt_of_le_of_lt (takeLines_prefix_le _ _) hb2
    simp only [List.foldl_cons]
    rw [redisWrite_step full wr hb1, hassoc]
    exact ih (full ++ wr.data) hb2

theorem lineNumsOf_append (a b : List RedisEntry) :
    lineNumsOf (a ++ b) = lineNumsOf a ++ lineNumsOf b := by
  simp [lineNumsOf, List.filterMap_append]

theorem natsToInts_append (a b : List Nat) :
    natsToInts (a ++ b) = natsToInts a ++ natsToInts b := by
  induction a with
  | nil => rfl
  | cons k a ih =>
    show (k : Int) :: natsToInts (a ++ b) = (k : Int) :: (natsToInts a ++ natsToInts b)
    rw [ih]

theorem length_natsToInts (l : List Nat) :
    (natsToInts l).length = l.length := by
  induction l with
  | nil => rfl
  | cons k l ih => simp only [natsToInts, List.length_cons, ih]

theorem lineNumsOf_plainNumberLines (xs : List (List Char)) : ∀ L0 : Nat,
    lineNumsOf (plainNumberLines (L0 : Int) xs)
      = natsToInts (List.range' (L0 + 1) xs.length) := by
  induction xs with
  | nil =>
    intro L0
    show ([] : List Int) = natsToInts (List.range' (L0 + 1) 0)
    rfl
  | cons l ls ih =>
    intro L0
    rw [show plainNumberLines (L0 : Int) (l :: ls)
        = [RedisEntry.line ((L0 : Int) + 1) (String.mk l)]
          ++ plainNumberLines ((L0 : Int) + 1) ls from rfl]
    rw [lineNumsOf_append,
      show ((L0 : Int) + 1) = ((L0 + 1 : Nat) : Int) from by push_cast; ring,
      ih (L0 + 1)]
    rw [show (List.range' (L0 + 1) (l :: ls).length)
        = (L0 + 1) :: List.range' (L0 + 2) ls.length
        from by simpa using List.range'_succ (L0 + 1) ls.length 1]
    rfl

/-- C7: for every Redis-backed log streamer and every sequence of `Write`
calls followed by `Close` that emits fewer than 2^31 numbered entries (the
counter is an `atomic.Int32`, which would wrap past that): the stream
consists of one numbered entry per `\n`-terminated line of the
concatenated input, in order, followed by the trailing partial line (when
non-empty) as a final numbered entry, followed by the sentinel `done`
entry; the line numbers are exactly `1, 2, …, k` (strictly increasing from
1 with no gaps); and the 5-minute (300 s) TTL is applied to the stream key
on close. -/
theorem c7_redis_streamer_lines (writes : List String)
    (hk : (takeLines (concatData writes)).1.length + 1 < 2 ^ 31) :
    (runStreamer writes).entries
      = plainNumberLines 0 (takeLines (concatData writes)).1
        ++ (if (takeLines (concatData writes)).2.length ≠ 0 then
              [RedisEntry.line
                (((takeLines (concatData writes)).1.length : Int) + 1)
                (String.mk (takeLines (concatData writes)).2)]
            else [])
        ++ [RedisEntry.done]
    ∧ lineNumsOf (runStreamer writes).entries
        = natsToInts
            (List.range' 1 (lineNumsOf (runStreamer writes).entries).length)
    ∧ (runStreamer writes).ttlSeconds = some 300 := by
  have hk' : (takeLines (concatData writes)).1.length + 1 < 2147483648 := by
    omega
  have hL : (takeLines (concatData writes)).1.length < 2147483648 := by
    omega
  have hfold : writes.foldl redisWrite {} = invState (concatData writes) := by
    have h0 : ({} : RedisState) = invState [] := by
      simp [invState, takeLines, numberLines]
    rw [h0]
    exact redisWrites_inv writes [] (by simpa using hL)
  have hplain : numberLines 0 (takeLines (concatData writes)).1
      = plainNumberLines 0 (takeLines (concatData writes)).1 := by
    have := numberLines_plain (takeLines (concatData writes)).1 0 (by omega)
    simpa using this
  have hbump : bumpLine ((takeLines (concatData writes)).1.length : Int)
      = ((takeLines (concatData writes)).1.length : Int) + 1 :=
    bumpLine_small _ (Int.natCast_nonneg _) (by push_cast; omega)
  have hentries : (runStreamer writes).entries
      = plainNumberLines 0 (takeLines (concatData writes)).1
        ++ (if (takeLines (concatData writes)).2.length ≠ 0 then
              [RedisEntry.line
                (((takeLines (concatData writes)).1.length : Int) + 1)
                (String.mk (takeLines (concatData writes)).2)]
            else [])
        ++ [RedisEntry.done] := by
    unfold runStreamer
    rw [hfold]
    unfold redisClose invState
    by_cases hbuf : (takeLines (concatData writes)).2.length ≠ 0
    · rw [if_pos hbuf, if_pos hbuf]
      simp [hplain, hbump, List.append_assoc]
    · rw [if_neg hbuf, if_neg hbuf]
      simp [hplain]
  have h0' : lineNumsOf (plainNumberLines 0 (takeLines (concatData writes)).1)
      = natsToInts (List.range' 1 (takeLines (concatData writes)).1.length) := by
    have := lineNumsOf_plainNumberLines (takeLines (concatData writes)).1 0
    simpa using this
  refine ⟨hentries, ?_, ?_⟩
  · by_cases hbuf : (takeLines (concatData writes)).2.length ≠ 0
    · have hnums : lineNumsOf (runStreamer writes).entries
          = natsToInts
              (List.range' 1 ((takeLines (concatData writes)).1.length + 1)) := by
        rw [hentries, if_pos hbuf, lineNumsOf_append, lineNumsOf_append, h0',
          show lineNumsOf [RedisEntry.done] = [] from rfl,
          show lineNumsOf [RedisEntry.line
              (((takeLines (concatData writes)).1.length : Int) + 1)
              (String.mk (takeLines (concatData writes)).2)]
            = [((takeLines (concatData writes)).1.length : Int) + 1] from rfl]
        rw [List.range'_concat 1 (takeLines (concatData writes)).1.length,
          natsToInts_append,
          show (1 + 1 * (takeLines (concatData writes)).1.length)
            = (takeLines (concatData writes)).1.length + 1 from by omega]
        simp only [List.append_nil]
        rfl
      rw [hnums, length_natsToInts, List.length_range']
    · have hnums : lineNumsOf (runStreamer writes).entries
          = natsToInts
              (List.range' 1 (takeLines (concatData writes)).1.length) := by
        rw [hentries, if_neg hbuf, lineNumsOf_append, lineNumsOf_append, h0',
          show lineNumsOf [RedisEntry.done] = [] from rfl,
          show lineNumsOf ([] : List RedisEntry) = [] from rfl]
        simp
      rw [hnums, length_natsToInts, List.length_range']
  · unfold runStreamer redisClose
    split <;> rfl

theorem c7_redis_streamer_lines_witness :
    ((takeLines (concatData ["a\nb", "\nc"])).1.length + 1 < 2 ^ 31)
    ∧ ((runStreamer ["a\nb", "\nc"]).entries
        = plainNumberLines 0 (takeLines (concatData ["a\nb", "\nc"])).1
          ++ (if (takeLines (concatData ["a\nb", "\nc"])).2.length ≠ 0 then
                [RedisEntry.line
                  (((takeLines (concatData ["a\nb", "\nc"])).1.length : Int) + 1)
                  (String.mk (takeLines (concatData ["a\nb", "\nc"])).2)]
              else [])
          ++ [RedisEntry.done]
      ∧ lineNumsOf (runStreamer ["a\nb", "\nc"]).entries
          = natsToInts (List.range' 1
              (lineNumsOf (runStreamer ["a\nb", "\nc"]).entries).length)
      ∧ (runStreamer ["a\nb", "\nc"]).ttlSeconds = some 300) :=
  ⟨by decide, c7_redis_streamer_lines ["a\nb", "\nc"] (by decide)⟩

/-! ## C8: internal token mint round-trip (`internal/auth`)

`GenerateTerrakubeToken` decodes the internal secret (base64url first,
standard base64 as fallback — `decodeSecret`), builds the fixed claim set
with `iat = now`, `exp = now + 30 days`, and signs it with HS256.
`ValidateToken` parses the token unverified, dispatches on the `iss` claim
(`TerrakubeInternal` → HMAC with the internal secret), re-decodes the same
secret, checks the signing method is HMAC, verifies the signature and the
claims (`exp`).  The HMAC function and the OIDC branch (network) are
explicit parameters; the serialised signing input is modelled by an
injective rendering of the claim set. -/

/-- Index of a character in the base64 alphabet (`URLEncoding` uses `-`/`_`,
`StdEncoding` uses `+`/`/`). -/
def b64CharIndex (urlSafe : Bool) (c : Char) : Option Nat :=
  if 'A' ≤ c ∧ c ≤ 'Z' then some (c.toNat - 65)
  else if 'a' ≤ c ∧ c ≤ 'z' then some (c.toNat - 97 + 26)
  else if '0' ≤ c ∧ c ≤ '9' then some (c.toNat - 48 + 52)
  else if ¬urlSafe ∧ c = '+' then some 62
  else if ¬urlSafe ∧ c = '/' then some 63
  else if urlSafe ∧ c = '-' then some 62
  else if urlSafe ∧ c = '_' then some 63
  else none

/-- Go `base64.Encoding.DecodeString` for a padded encoding: decode in
4-character quanta; `=` padding is allowed only at the end (`xx==` → 1 byte,
`xxx=` → 2 bytes); anything else is `CorruptInputError`. -/
def b64DecodeGo (urlSafe : Bool) : List Char → Option (List Nat)
  | [] => some []
  | c1 :: c2 :: c3 :: c4 :: rest => do
    let i1 ← b64CharIndex urlSafe c1
    let i2 ← b64CharIndex urlSafe c2
    if c3 = '=' then
      if c4 = '=' ∧ rest = [] then pure [i1 * 4 + i2 / 16]
      else none
    else do
      let i3 ← b64CharIndex urlSafe c3
      if c4 = '=' then
        if rest = [] then pure [i1 * 4 + i2 / 16, (i2 % 16) * 16 + i3 / 4]
        else none
      else do
        let i4 ← b64CharIndex urlSafe c4
        let more ← b64DecodeGo urlSafe rest
        pure ([i1 * 4 + i2 / 16, (i2 % 16) * 16 + i3 / 4, (i3 % 4) * 64 + i4] ++ more)
  | _ => none

/-- `auth.decodeSecret`: base64url first, standard base64 as fallback. -/
def decodeSecret (secret : String) : Option (List Nat) :=
  match b64DecodeGo true secret.data with
  | some k => some k
  | none => b64DecodeGo false secret.data

/-- The JWT claim set minted by `GenerateTerrakubeToken`. -/
structure JwtClaims where
  iss : String
  sub : String
  aud : String
  email : String
  emailVerified : Bool
  name : String
  iat : Int
  exp : Int
  deriving DecidableEq, Repr

/-- Claims of a freshly minted internal token at Unix time `now`
(`exp = iat + 30 * 24h`). -/
def terrakubeClaims (now : Int) : JwtClaims :=
  { iss := "TerrakubeInternal", sub := "TerrakubeInternal (TOKEN)",
    aud := "TerrakubeInternal", email := "no-reply@terrakube.io",
    emailVerified := true, name := "TerrakubeInternal Client",
    iat := now, exp := now + 30 * 24 * 3600 }

/-- The bytes-to-be-signed of a token (stands for
`base64url(header) ++ "." ++ base64url(claims JSON)`; injective in the
claim set). -/
def signingInput (c : JwtClaims) : String :=
  "HS256." ++ c.iss ++ "|" ++ c.sub ++ "|" ++ c.aud ++ "|" ++ c.email ++ "|"
    ++ (if c.emailVerified then "true" else "false") ++ "|" ++ c.name ++ "|"
    ++ toString c.iat ++ "|" ++ toString c.exp

/-- A parsed JWT: header algorithm, claim set and signature. -/
structure JwtToken where
  alg : String
  claims : JwtClaims
  sig : String
  deriving DecidableEq, Repr

/-- `auth.GenerateTerrakubeToken(internalSecret)` at time `now`, with the
HMAC primitive passed explicitly. -/
def generateTerrakubeToken (hmac : List Nat → String → String)
    (internalSecret : String) (now : Int) : Except String JwtToken :=
  if internalSecret = "" then
    .error "InternalSecret is not configured, cannot generate Terrakube Token"
  else
    match decodeSecret internalSecret with
    | none => .error "failed to decode secret"
    | some key =>
      let claims := terrakubeClaims now
      .ok { alg := "HS256", claims := claims, sig := hmac key (signingInput claims) }

/-- `auth.validateHMACToken`: decode the secret, require an HMAC signing
method, verify the signature, and validate the claims (`exp` must lie in
the future — golang-jwt v5's default claim validation). -/
def validateHMACToken (hmac : List Nat → String → String) (tok : JwtToken)
    (secretStr secretName : String) (now : Int) : Except String JwtClaims :=
  if secretStr = "" then .error (secretName ++ " not configured")
  else
    match decodeSecret secretStr with
    | none => .error "failed to decode secret"
    | some key =>
      if ¬(tok.alg = "HS256" ∨ tok.alg = "HS384" ∨ tok.alg = "HS512") then
        .error ("unexpected signing method: " ++ tok.alg)
      else if tok.sig ≠ hmac key (signingInput tok.claims) then
        .error "token validation failed: signature is invalid"
      else if ¬(now < tok.claims.exp) then
        .error "token validation failed: token is expired"
      else .ok tok.claims

/-- `auth.ValidateTokenWithIssuer`: dispatch on the unverified `iss` claim;
the OIDC branch (JWKS over the network) is an oracle parameter. -/
def validateTokenWithIssuer (hmac : List Nat → String → String)
    (oidc : JwtToken → String → Except String JwtClaims) (tok : JwtToken)
    (internalSecret patSecret issuerUri : String) (now : Int) :
    Except String JwtClaims :=
  if tok.claims.iss = "TerrakubeInternal" then
    validateHMACToken hmac tok internalSecret "internal secret" now
  else if tok.claims.iss = "Terrakube" then
    validateHMACToken hmac tok patSecret "PAT secret" now
  else if issuerUri = "" then
    .error ("unsupported token issuer: " ++ tok.claims.iss ++ " (no issuer URI configured)")
  else oidc tok issuerUri

/-- `auth.ValidateToken` = `ValidateTokenWithIssuer` with an empty issuer
URI. -/
def validateToken (hmac : List Nat → String → String)
    (oidc : JwtToken → String → Except String JwtClaims) (tok : JwtToken)
    (internalSecret patSecret : String) (now : Int) : Except String JwtClaims :=
  validateTokenWithIssuer hmac oidc tok internalSecret patSecret "" now

/-- C8: for every HMAC primitive, every non-empty internal secret that
decodes as base64url (or, via the fallback, standard base64), and every
mint time: validating a freshly minted internal token against the same
secret succeeds, returning exactly the minted claim set, whose issuer is
`TerrakubeInternal`. -/
theorem c8_token_mint_roundtrip
    (hmac : List Nat → String → String)
    (oidc : JwtToken → String → Except String JwtClaims)
    (secret patSecret : String) (now : Int)
    (hne : secret ≠ "") (hdec : (decodeSecret secret).isSome = true) :
    (do let tok ← generateTerrakubeToken hmac secret now
        validateToken hmac oidc tok secret patSecret now)
      = Except.ok (terrakubeClaims now)
    ∧ (terrakubeClaims now).iss = "TerrakubeInternal" := by
  obtain ⟨key, hkey⟩ := Option.isSome_iff_exists.mp hdec
  refine ⟨?_, rfl⟩
  have hmint : generateTerrakubeToken hmac secret now
      = .ok { alg := "HS256", claims := terrakubeClaims now,
              sig := hmac key (signingInput (terrakubeClaims now)) } := by
    simp [generateTerrakubeToken, hne, hkey]
  rw [show (do let tok ← generateTerrakubeToken hmac secret now
               validateToken hmac oidc tok secret patSecret now)
      = (generateTerrakubeToken hmac secret now).bind
          (fun tok => validateToken hmac oidc tok secret patSecret now) from rfl]
  rw [hmint]
  show validateToken hmac oidc _ secret patSecret now = _
  simp only [validateToken, validateTokenWithIssuer, validateHMACToken,
    terrakubeClaims, hne, hkey]
  have hexp : now < now + 30 * 24 * 3600 := by omega
  simp [hexp]

/-- A 6-byte secret in (padding-free) base64: the C8 witness. -/
def c8Secret : String := "c2VjcmV0"

theorem c8_token_mint_roundtrip_witness :
    (c8Secret ≠ "" ∧ (decodeSecret c8Secret).isSome = true)
    ∧ (do let tok ← generateTerrakubeToken (fun _ _ => "mac") c8Secret 0
          validateToken (fun _ _ => "mac") (fun _ _ => .error "") tok c8Secret "" 0)
        = Except.ok (terrakubeClaims 0)
    ∧ (terrakubeClaims 0).iss = "TerrakubeInternal" :=
  ⟨⟨by decide, by decide⟩,
   c8_token_mint_roundtrip (fun _ _ => "mac") (fun _ _ => .error "") c8Secret "" 0
     (by decide) (by decide)⟩

/-! ## C9: `VersionManager.Install` (`terraform/version_manager.go`)

`installTerraform` calls `version.NewVersion(ver)` first and returns before
any network access when parsing fails; success is followed by the
hc-install release fetch.  `installTofu` never parses the version: it
probes the cache (`os.Stat`) and, on a miss, `curl`s the GitHub release URL
built from the raw version string.  The semver parser's verdict is the
oracle `versionOk` (abstracting `hashicorp/go-version`); the theorems below
never depend on which strings it accepts. -/

/-- Externally visible step of an `Install` run. -/
inductive VmEvent where
  /-- Network I/O (release resolution or download) against `url`. -/
  | network (url : String)
  /-- A local subprocess or chmod. -/
  | run (cmd : String)
  deriving DecidableEq, Repr

/-- Oracle for one `Install` call. -/
structure VmWorld where
  /-- Whether `version.NewVersion` accepts a given string. -/
  versionOk : String → Bool := fun _ => true
  /-- `os.Stat(<cache>/tofu/tofu-<ver>/tofu)` hit. -/
  tofuCached : Bool := false
  /-- `os.MkdirAll` results. -/
  mkdirOk : Bool := true
  /-- `releases.ExactVersion.Install` outcome. -/
  hcInstallOk : Bool := true
  /-- `curl` outcome. -/
  curlOk : Bool := true
  /-- `unzip` outcome. -/
  unzipOk : Bool := true
  /-- `os.Chmod` outcome. -/
  chmodOk : Bool := true

/-- `VersionManager.installTerraform`. -/
def installTerraform (w : VmWorld) (ver : String) :
    List VmEvent × Except String String :=
  if ¬w.versionOk ver then ([], .error ("invalid terraform version " ++ ver))
  else
    let fetch := VmEvent.network ("https://releases.hashicorp.com/terraform/" ++ ver)
    if w.hcInstallOk then ([fetch], .ok ("/cache/terraform-versions/terraform-" ++ ver))
    else ([fetch], .error ("failed to install terraform " ++ ver))

/-- `VersionManager.installTofu`. -/
def installTofu (w : VmWorld) (ver : String) :
    List VmEvent × Except String String :=
  let execPath := "/cache/terraform-versions/tofu/tofu-" ++ ver ++ "/tofu"
  if ¬w.mkdirOk then ([], .error "failed to create tofu dir")
  else if w.tofuCached then ([], .ok execPath)
  else
    let url := "https://github.com/opentofu/opentofu/releases/download/v" ++ ver
      ++ "/tofu_" ++ ver ++ "_linux_amd64.zip"
    if ¬w.curlOk then ([.network url], .error ("failed to download OpenTofu " ++ ver))
    else if ¬w.unzipOk then
      ([.network url, .run "unzip"], .error ("failed to extract OpenTofu " ++ ver))
    else if ¬w.chmodOk then
      ([.network url, .run "unzip"], .error "failed to chmod tofu")
    else ([.network url, .run "unzip"], .ok execPath)

/-- `VersionManager.Install(ver, tofu)`. -/
def vmInstall (w : VmWorld) (ver : String) (tofu : Bool) :
    List VmEvent × Except String String :=
  if tofu then installTofu w ver else installTerraform w ver

/-- Did a run perform any network I/O? -/
def hasNetwork (evs : List VmEvent) : Bool :=
  evs.any fun e => match e with
    | .network _ => true
    | _ => false

/-- World for the C9 counterexample: the semver parser rejects every
string, nothing is cached, downloads succeed. -/
def c9World : VmWorld := { versionOk := fun _ => false }

/-- C9 (counterexample): for the `tofu` flavor, an invalid version string
is **not** rejected before network I/O — `installTofu` never consults the
semver parser, and on a cache miss it attempts the GitHub download built
from the raw string and even reports success. -/
theorem c9_tofu_skips_semver_check :
    c9World.versionOk "not-a-version!!" = false
    ∧ hasNetwork (vmInstall c9World "not-a-version!!" true).1 = true
    ∧ (vmInstall c9World "not-a-version!!" true).2
        = .ok "/cache/terraform-versions/tofu/tofu-not-a-version!!/tofu" :=
  ⟨rfl, rfl, rfl⟩

/-- C9 (amended): for the `terraform` flavor, `Install` parses the version
as semver and, when parsing fails, returns an error having performed no
network I/O at all; for the `tofu` flavor the version string is not
semver-validated — on a cache miss the download is attempted regardless of
the parser's verdict. -/
theorem c9_semver_fail_fast_amended (w : VmWorld) (ver : String)
    (hv : w.versionOk ver = false) :
    (vmInstall w ver false).2 = .error ("invalid terraform version " ++ ver)
    ∧ (vmInstall w ver false).1 = []
    ∧ hasNetwork (vmInstall w ver false).1 = false
    ∧ (w.tofuCached = false → w.mkdirOk = true →
        hasNetwork (vmInstall w ver true).1 = true) := by
  refine ⟨?_, ?_, ?_, ?_⟩
  · simp [vmInstall, installTerraform, hv]
  · simp [vmInstall, installTerraform, hv]
  · simp [vmInstall, installTerraform, hv, hasNetwork]
  · intro hc hm
    simp only [vmInstall, installTofu, hc, hm, if_true]
    by_cases h1 : w.curlOk <;> by_cases h2 : w.unzipOk <;> by_cases h3 : w.chmodOk <;>
      simp [h1, h2, h3, hasNetwork]

theorem c9_semver_fail_fast_amended_witness :
    c9World.versionOk "x.y.z!" = false
    ∧ (vmInstall c9World "x.y.z!" false).2 = .error ("invalid terraform version " ++ "x.y.z!")
    ∧ (vmInstall c9World "x.y.z!" false).1 = []
    ∧ hasNetwork (vmInstall c9World "x.y.z!" false).1 = false
    ∧ (c9World.tofuCached = false → c9World.mkdirOk = true →
        hasNetwork (vmInstall c9World "x.y.z!" true).1 = true) :=
  ⟨by decide, c9_semver_fail_fast_amended c9World "x.y.z!" (by decide)⟩

/-! ## C10: the no-op storage backend

`initStorage` (executor `Start`) selects the backend from
`cfg.StorageType`; `LOCAL`, the empty string (defaulted to `LOCAL`) and any
unrecognized value take the `default` branch and get `NopStorageService`,
as does any recognized backend whose construction fails.
`NopStorageService.DownloadFile` returns `(nil, nil)` and `UploadFile`
returns `nil`.  `resolveStateDownload` embeds `ProcessJob`'s guard
(`if err != nil { … } else if stateReader != nil { … }`): only its
`copiedPrior` branch dereferences the reader. -/

/-- The storage backend chosen by `initStorage`. -/
inductive StorageBackend where
  | aws
  | azure
  | gcp
  | nop
  deriving DecidableEq, Repr

/-- `initStorage(cfg)`: backend selection with constructor success flags. -/
def initStorage (storageType : String) (awsOk azureOk gcpOk : Bool) :
    StorageBackend :=
  let st := if storageType = "" then "LOCAL" else storageType
  let chosen : Option StorageBackend :=
    if st = "AWS" ∨ st = "AwsStorageImpl" then
      (if awsOk then some .aws else none)
    else if st = "AZURE" ∨ st = "AzureStorageImpl" then
      (if azureOk then some .azure else none)
    else if st = "GCP" ∨ st = "GcpStorageImpl" then
      (if gcpOk then some .gcp else none)
    else some .nop
  match chosen with
  | some b => b
  | none => .nop

/-- `NopStorageService.DownloadFile`: `(nil, nil)` — no reader, no error. -/
def nopDownloadFile (_path : String) : Option String × Option String :=
  (none, none)

/-- `NopStorageService.UploadFile`: always `nil` (silent no-op). -/
def nopUploadFile (_path _content : String) : Option String :=
  none

/-- Outcome of `ProcessJob`'s prior-state download guard. -/
inductive StateDlOutcome where
  /-- `err != nil`: logged, treated as "no existing state". -/
  | loggedNoState (err : String)
  /-- `stateReader != nil`: the reader is dereferenced and copied. -/
  | copiedPrior (content : String)
  /-- `(nil, nil)`: both guards fail, no dereference, no prior state. -/
  | noPriorSilently
  deriving DecidableEq, Repr

/-- The guard of `ProcessJob` lines 179–195 applied to a `DownloadFile`
result `(reader, err)`. -/
def resolveStateDownload : Option String × Option String → StateDlOutcome
  | (_, some e) => .loggedNoState e
  | (some r, none) => .copiedPrior r
  | (none, none) => .noPriorSilently

/-- C10: for every storage type that is not one of the recognized backend
selectors (so `LOCAL`, the empty default and any unrecognized value),
`initStorage` yields the no-op backend; its `DownloadFile` returns
`(nil, nil)`; `ProcessJob`'s guard resolves that to "no prior state"
without ever dereferencing the nil reader (only the `copiedPrior` branch
dereferences, and it is not taken); and `UploadFile` always succeeds as a
silent no-op. -/
theorem c10_nop_storage_guard (storageType : String) (awsOk azureOk gcpOk : Bool)
    (h : storageType ∉ ["AWS", "AwsStorageImpl", "AZURE", "AzureStorageImpl",
      "GCP", "GcpStorageImpl"]) :
    initStorage storageType awsOk azureOk gcpOk = .nop
    ∧ (∀ path, nopDownloadFile path = (none, none))
    ∧ (∀ path, resolveStateDownload (nopDownloadFile path) = .noPriorSilently)
    ∧ (∀ path content, nopUploadFile path content = none) := by
  refine ⟨?_, fun _ => rfl, fun _ => rfl, fun _ _ => rfl⟩
  simp only [List.mem_cons, List.mem_singleton] at h
  push_neg at h
  obtain ⟨h1, h2, h3, h4, h5, h6⟩ := h
  by_cases h0 : storageType = ""
  · simp [initStorage, h0]
  · simp [initStorage, h0, h1, h2, h3, h4, h5, h6]

theorem c10_nop_storage_guard_witness :
    ("LOCAL" ∉ ["AWS", "AwsStorageImpl", "AZURE", "AzureStorageImpl",
      "GCP", "GcpStorageImpl"])
    ∧ initStorage "LOCAL" true true true = .nop
    ∧ (∀ path, nopDownloadFile path = (none, none))
    ∧ (∀ path, resolveStateDownload (nopDownloadFile path) = .noPriorSilently)
    ∧ (∀ path content, nopUploadFile path content = none) :=
  ⟨by decide, c10_nop_storage_guard "LOCAL" true true true (by decide)⟩

/-! ## C2: working-directory lifecycle (`workspace` + `git.CloneWorkspace`)

Paths are strings; directories on disk are a list of path strings.
`filepath.Join(a, b)` is `Clean(a + "/" + b)`; `Clean` is implemented
component-wise (Go `path/filepath.Clean`'s four rewrite rules: drop empty
components and `.`, resolve `..` against the stack, keep leading `..` only
in relative paths). -/

/-- Split a character list on `'/'` (components may be empty). -/
def splitSlash : List Char → List (List Char)
  | [] => [[]]
  | c :: r =>
    if c = '/' then [] :: splitSlash r
    else
      match splitSlash r with
      | [] => [[c]]
      | l :: ls => (c :: l) :: ls

/-- Join components with `'/'`. -/
def joinSlash : List (List Char) → List Char
  | [] => []
  | [l] => l
  | l :: ls => l ++ '/' :: joinSlash ls

/-- A component that `Clean` leaves untouched: non-empty, not a dot
component, and slash-free. -/
def goodC (c : List Char) : Bool :=
  decide (c ≠ []) && decide (c ≠ ['.']) && decide (c ≠ ['.', '.']) && decide (¬ '/' ∈ c)

/-- The component loop of Go `filepath.Clean`: skip `""` and `"."`, resolve
`".."` against the output stack (dropped at the root for rooted paths, kept
for relative ones), push everything else.  `acc` is the reversed output. -/
def cleanCompsAux (rooted : Bool) (acc : List (List Char)) :
    List (List Char) → List (List Char)
  | [] => acc.reverse
  | c :: cs =>
    if c = [] ∨ c = ['.'] then cleanCompsAux rooted acc cs
    else if c = ['.', '.'] then
      match acc with
      | [] =>
        if rooted then cleanCompsAux rooted [] cs
        else cleanCompsAux rooted [['.', '.']] cs
      | top :: rest =>
        if top = ['.', '.'] then cleanCompsAux rooted (c :: acc) cs
        else cleanCompsAux rooted rest cs
    else cleanCompsAux rooted (c :: acc) cs

/-- Does the path start with the separator? -/
def isRooted (cs : List Char) : Bool :=
  match cs with
  | '/' :: _ => true
  | _ => false

/-- Go `filepath.Clean` (Unix). -/
def pathClean (p : String) : String :=
  if p.data = [] then "."
  else
    let comps := cleanCompsAux (isRooted p.data) [] (splitSlash p.data)
    if isRooted p.data then String.mk ('/' :: joinSlash comps)
    else if comps = [] then "." else String.mk (joinSlash comps)

/-- Go `filepath.Join` restricted to two elements (empty elements are
skipped before cleaning). -/
def goJoin (a b : String) : String :=
  if a = "" then pathClean b
  else if b = "" then pathClean a
  else pathClean (a ++ "/" ++ b)

/-- Go `strings.HasSuffix`. -/
def strHasSuffix (s suffix : String) : Bool :=
  suffix.data.isSuffixOf s.data

/-- Go `strings.TrimSuffix`. -/
def trimSuffix (s t : String) : String :=
  if strHasSuffix s t then String.mk (s.data.take (s.data.length - t.data.length))
  else s

/-- Go `strings.HasPrefix` (character-level). -/
def strHasPre (s pre : String) : Bool :=
  pre.data.isPrefixOf s.data

/-! ### Lemmas about the path functions -/

theorem splitSlash_ne_nil (cs : List Char) : splitSlash cs ≠ [] := by
  induction cs with
  | nil => simp [splitSlash]
  | cons c r ih =>
    by_cases hc : c = '/'
    · simp [splitSlash, hc]
    · simp only [splitSlash, if_neg hc]
      cases h : splitSlash r with
      | nil => simp
      | cons l ls => simp

theorem splitSlash_append (xs ys : List Char) :
    splitSlash (xs ++ '/' :: ys) = splitSlash xs ++ splitSlash ys := by
  induction xs with
  | nil => simp [splitSlash]
  | cons c xs ih =>
    by_cases hc : c = '/'
    · simp only [List.cons_append, splitSlash, List.append_eq, if_pos hc, ih]
    · simp only [List.cons_append, splitSlash, List.append_eq, if_neg hc, ih]
      cases h : splitSlash xs with
      | nil => exact absurd h (splitSlash_ne_nil xs)
      | cons l ls => simp

theorem splitSlash_no_slash (cs : List Char) (h : ¬ '/' ∈ cs) :
    splitSlash cs = [cs] := by
  induction cs with
  | nil => rfl
  | cons c r ih =>
    have hc : ¬c = '/' := fun hh => h (by simp [hh])
    have hr : ¬ '/' ∈ r := fun hh => h (by simp [hh])
    simp only [splitSlash, if_neg hc, ih hr]

theorem mem_splitSlash_no_slash (cs : List Char) :
    ∀ c ∈ splitSlash cs, ¬ '/' ∈ c := by
  induction cs with
  | nil => simp [splitSlash]
  | cons x r ih =>
    by_cases hx : x = '/'
    · simp only [splitSlash, if_pos hx]
      intro c hc
      rcases List.mem_cons.mp hc with h | h
      · simp [h]
      · exact ih c h
    · simp only [splitSlash, if_neg hx]
      cases h : splitSlash r with
      | nil => exact absurd h (splitSlash_ne_nil r)
      | cons l ls =>
        intro c hc
        rcases List.mem_cons.mp hc with hcc | hcc
        · subst hcc
          intro hmem
          rcases List.mem_cons.mp hmem with hh | hh
          · exact hx hh.symm
          · exact ih l (h ▸ List.mem_cons_self l ls) hh
        · exact ih c (h ▸ List.mem_cons_of_mem l hcc)

theorem joinSlash_cons (l : List Char) (ls : List (List Char)) (h : ls ≠ []) :
    joinSlash (l :: ls) = l ++ '/' :: joinSlash ls := by
  cases ls with
  | nil => exact absurd rfl h
  | cons m ms => rfl

theorem splitSlash_joinSlash (C : List (List Char)) (hne : C ≠ [])
    (hgood : ∀ c ∈ C, ¬ '/' ∈ c) :
    splitSlash (joinSlash C) = C := by
  induction C with
  | nil => exact absurd rfl hne
  | cons l ls ih =>
    cases hls : ls with
    | nil =>
      subst hls
      show splitSlash (joinSlash [l]) = [l]
      exact splitSlash_no_slash l (hgood l (by simp))
    | cons m ms =>
      rw [← hls, joinSlash_cons l ls (by simp [hls]), splitSlash_append,
        splitSlash_no_slash l (hgood l (by simp)),
        ih (by simp [hls]) (fun c hc => hgood c (List.mem_cons_of_mem l hc))]
      rfl

theorem cleanCompsAux_all_good (cs : List (List Char)) :
    ∀ acc, (∀ c ∈ cs, goodC c = true) →
    cleanCompsAux true acc cs = acc.reverse ++ cs := by
  induction cs with
  | nil => intro acc _; simp [cleanCompsAux]
  | cons c cs ih =>
    intro acc hg
    have hc : goodC c = true := hg c (by simp)
    simp only [goodC, Bool.and_eq_true, decide_eq_true_eq] at hc
    obtain ⟨⟨⟨h1, h2⟩, h3⟩, h4⟩ := hc
    simp only [cleanCompsAux, if_neg (by tauto : ¬(c = [] ∨ c = ['.'])), if_neg h3]
    rw [ih (c :: acc) (fun d hd => hg d (List.mem_cons_of_mem c hd))]
    simp

theorem cleanCompsAux_good_output (cs : List (List Char)) :
    ∀ acc, (∀ c ∈ cs, ¬ '/' ∈ c) → (∀ c ∈ acc, goodC c = true) →
    ∀ c ∈ cleanCompsAux true acc cs, goodC c = true := by
  induction cs with
  | nil =>
    intro acc _ hacc c hc
    simp only [cleanCompsAux] at hc
    exact hacc c (List.mem_reverse.mp hc)
  | cons x cs ih =>
    intro acc hsl hacc
    by_cases h1 : x = [] ∨ x = ['.']
    · simp only [cleanCompsAux, if_pos h1]
      exact ih acc (fun c hc => hsl c (List.mem_cons_of_mem x hc)) hacc
    · by_cases h2 : x = ['.', '.']
      · simp only [cleanCompsAux, if_neg h1, if_pos h2]
        cases hacc' : acc with
        | nil =>
          simp only [if_pos rfl]
          exact ih [] (fun c hc => hsl c (List.mem_cons_of_mem x hc)) (by simp)
        | cons top rest =>
          have htop : goodC top = true := hacc top (hacc' ▸ List.mem_cons_self top rest)
          have htop' : ¬top = ['.', '.'] := by
            simp only [goodC, Bool.and_eq_true, decide_eq_true_eq] at htop
            exact htop.1.2
          simp only [if_neg htop']
          exact ih rest (fun c hc => hsl c (List.mem_cons_of_mem x hc))
            (fun c hc => hacc c (hacc' ▸ List.mem_cons_of_mem top hc))
      · simp only [cleanCompsAux, if_neg h1, if_neg h2]
        refine ih (x :: acc) (fun c hc => hsl c (List.mem_cons_of_mem x hc)) ?_
        intro c hc
        rcases List.mem_cons.mp hc with hcc | hcc
        · subst hcc
          have hx1 : ¬c = [] := fun hh => h1 (Or.inl hh)
          have hx2 : ¬c = ['.'] := fun hh => h1 (Or.inr hh)
          have hx4 : ¬ '/' ∈ c := hsl c (by simp)
          simp [goodC, hx1, hx2, h2, hx4]
        · exact hacc c hcc

theorem pathClean_rooted_data (p : String) (h : isRooted p.data = true) :
    (pathClean p).data
      = '/' :: joinSlash (cleanCompsAux true [] (splitSlash p.data)) := by
  have hne : ¬p.data = [] := by
    cases hd : p.data with
    | nil => rw [hd] at h; simp [isRooted] at h
    | cons c cs => simp
  simp [pathClean, hne, h]

theorem cleanCompsAux_cons (acc : List (List Char)) (c : List Char)
    (cs : List (List Char)) :
    cleanCompsAux true acc (c :: cs) =
      if c = [] ∨ c = ['.'] then cleanCompsAux true acc cs
      else if c = ['.', '.'] then
        (match acc with
         | [] => cleanCompsAux true [] cs
         | top :: rest =>
           if top = ['.', '.'] then cleanCompsAux true (c :: acc) cs
           else cleanCompsAux true rest cs)
      else cleanCompsAux true (c :: acc) cs := rfl

/-- Cleaning `/tmp/<name>/<rest>` can never shed the `/tmp/<name>` prefix:
its cleaned components are never exactly the components of `rest`. -/
theorem clean_no_collapse (N F : List Char) (hN : goodC N = true)
    (hF : F ≠ []) :
    joinSlash (cleanCompsAux true []
        (splitSlash (['/', 't', 'm', 'p', '/'] ++ N ++ '/' :: F))) ≠ F := by
  intro heq
  have hNg := hN
  simp only [goodC, Bool.and_eq_true, decide_eq_true_eq] at hNg
  obtain ⟨⟨⟨hN1, hN2⟩, hN3⟩, hN4⟩ := hNg
  have hsl := mem_splitSlash_no_slash (['/', 't', 'm', 'p', '/'] ++ N ++ '/' :: F)
  have hgood : ∀ c ∈ cleanCompsAux true []
      (splitSlash (['/', 't', 'm', 'p', '/'] ++ N ++ '/' :: F)), goodC c = true :=
    cleanCompsAux_good_output _ [] hsl (by simp)
  set C := cleanCompsAux true []
    (splitSlash (['/', 't', 'm', 'p', '/'] ++ N ++ '/' :: F)) with hC
  have hCne : C ≠ [] := by
    intro h
    rw [h] at heq
    exact hF heq.symm
  have hsplitF : splitSlash F = C := by
    rw [← heq]
    exact splitSlash_joinSlash C hCne (fun c hc => by
      have := hgood c hc
      simp only [goodC, Bool.and_eq_true, decide_eq_true_eq] at this
      exact this.2)
  have hfull : splitSlash (['/', 't', 'm', 'p', '/'] ++ N ++ '/' :: F)
      = [[], ['t', 'm', 'p'], N] ++ splitSlash F := by
    have h1 : (['/', 't', 'm', 'p', '/'] ++ N ++ '/' :: F)
        = '/' :: (['t', 'm', 'p'] ++ '/' :: (N ++ '/' :: F)) := by simp
    rw [h1]
    rw [show splitSlash ('/' :: (['t', 'm', 'p'] ++ '/' :: (N ++ '/' :: F)))
        = [] :: splitSlash (['t', 'm', 'p'] ++ '/' :: (N ++ '/' :: F)) from rfl]
    rw [splitSlash_append, splitSlash_append, splitSlash_no_slash N hN4]
    rfl
  have hCgoodall : ∀ c ∈ C, goodC c = true := hgood
  have hcompute : C = ['t', 'm', 'p'] :: N :: C := by
    conv_lhs => rw [hC, hfull, hsplitF]
    rw [show ([[], ['t', 'm', 'p'], N] ++ C) = [] :: ['t', 'm', 'p'] :: N :: C
      from rfl]
    rw [cleanCompsAux_cons, if_pos (Or.inl rfl)]
    rw [cleanCompsAux_cons, if_neg (by simp), if_neg (by simp)]
    rw [cleanCompsAux_cons, if_neg (by tauto), if_neg hN3]
    rw [cleanCompsAux_all_good C _ hCgoodall]
    rfl
  have := congrArg List.length hcompute
  simp at this
  omega

/-! ### The filesystem model -/

/-- Directory paths currently on disk; `os.RemoveAll target` deletes the
path and everything below it. -/
def removeAllFs (fs : List String) (target : String) : List String :=
  fs.filter fun p => !(p == target || (target ++ "/").data.isPrefixOf p.data)

theorem self_not_mem_removeAllFs (fs : List String) (t : String) :
    ¬t ∈ removeAllFs fs t := by
  intro h
  have := (List.mem_filter.mp h).2
  simp at this

theorem sub_not_mem_removeAllFs (fs : List String) (t p : String)
    (hp : (t ++ "/").data.isPrefixOf p.data = true) :
    ¬p ∈ removeAllFs fs t := by
  intro h
  have := (List.mem_filter.mp h).2
  simp only [String.data_append] at hp
  simp [hp] at this

/-- External outcomes of one job's workspace lifecycle. -/
structure GitWorld where
  mkTempOk : Bool := true
  rnd : String := "x1"
  sshMkdirOk : Bool := true
  sshWriteOk : Bool := true
  cloneOk : Bool := true
  execFails : Bool := false

/-- `os.MkdirTemp("", "terrakube-job-<jobId>")`: the temp root gets the
pattern as prefix plus a random suffix, under `/tmp`. -/
def tempDirOf (job : TerraformJob) (rnd : String) : String :=
  "/tmp/" ++ ("terrakube-job-" ++ job.jobId) ++ rnd

/-- `setupSSHEnv` does real work only for `SSH*` vcs types with a key. -/
def sshUsed (job : TerraformJob) : Bool :=
  strHasPre job.vcsType "SSH" && !(job.accessToken == "")

/-- `git.Service.CloneWorkspace`: make the temp root, optionally write the
SSH key under `<tempDir>/.ssh` (removed again by the deferred `sshCleanup`
once set), clone, and return `tempDir` or `Join(tempDir, folder)`.  Returns
the updated disk contents and the final directory on success. -/
def cloneWorkspace (w : GitWorld) (fs : List String) (job : TerraformJob) :
    List String × Option String :=
  if !w.mkTempOk then (fs, none)
  else
    let tempDir := tempDirOf job w.rnd
    let fs := tempDir :: fs
    let finalDir := if job.folder = "" then tempDir else goJoin tempDir job.folder
    if sshUsed job then
      if !w.sshMkdirOk then (fs, none)
      else
        let sshDir := goJoin tempDir ".ssh"
        let fs := sshDir :: fs
        if !w.sshWriteOk then (fs, none)
        else if !w.cloneOk then (removeAllFs fs sshDir, none)
        else (removeAllFs fs sshDir, some finalDir)
    else
      if !w.cloneOk then (fs, none)
      else (fs, some finalDir)

/-- `workspace.Workspace.Setup`: clone, then remember
`WorkingDir = TrimSuffix(finalDir, "/"+folder)` (or `finalDir` itself when
no folder is set).  Returns `(disk, some (finalDir, workingDir))` on
success. -/
def workspaceSetupFs (w : GitWorld) (fs : List String) (job : TerraformJob) :
    List String × Option (String × String) :=
  match cloneWorkspace w fs job with
  | (fs, none) => (fs, none)
  | (fs, some finalDir) =>
    let wd := if job.folder = "" then finalDir
      else trimSuffix finalDir ("/" ++ job.folder)
    (fs, some (finalDir, wd))

/-- `workspace.Workspace.Cleanup`: `os.RemoveAll(WorkingDir)` unless it was
never set. -/
def workspaceCleanupFs (fs : List String) (wd : String) : List String :=
  if wd = "" then fs else removeAllFs fs wd

/-- Directory effects of `JobProcessor.ProcessJob`: on setup failure it
reports and returns with no cleanup deferred; after a successful Setup the
deferred `ws.Cleanup()` runs on every return path, whether the execution
(`w.execFails`) failed or not — execution itself touches only files inside
the working tree. -/
def processJobFs (w : GitWorld) (fs : List String) (job : TerraformJob) :
    List String :=
  match workspaceSetupFs w fs job with
  | (fs, none) => fs
  | (fs, some (_, wd)) => workspaceCleanupFs fs wd

theorem dataSlash : ("/" : String).data = ['/'] := rfl

theorem dataTmp : ("/tmp/" : String).data = ['/', 't', 'm', 'p', '/'] := rfl

theorem dataTkj : ("terrakube-job-" : String).data
    = ['t','e','r','r','a','k','u','b','e','-','j','o','b','-'] := rfl

theorem cloneWorkspace_some (w : GitWorld) (fs : List String)
    (job : TerraformJob) (fs1 : List String) (f0 : String)
    (h : cloneWorkspace w fs job = (fs1, some f0)) :
    f0 = if job.folder = "" then tempDirOf job w.rnd
      else goJoin (tempDirOf job w.rnd) job.folder := by
  simp only [cloneWorkspace] at h
  repeat' split at h
  all_goals simp_all

theorem tempDirOf_ne_empty (job : TerraformJob) (rnd : String) :
    ¬tempDirOf job rnd = "" := by
  intro hh
  have := congrArg String.data hh
  simp [tempDirOf, String.data_append, dataTmp] at this

/-- C2 (amended): once `Workspace.Setup` succeeds, the directory it
returned no longer exists after `ProcessJob` returns, on both the
execution-success and execution-failure paths — the deferred
`ws.Cleanup()` removes the stored working directory, which the returned
directory always equals or lies inside. -/
theorem c2_working_dir_removed_amended (w : GitWorld) (fs : List String)
    (job : TerraformJob) (hj : ¬ '/' ∈ job.jobId.data)
    (hr : ¬ '/' ∈ w.rnd.data) (finalDir wd : String)
    (hsetup : (workspaceSetupFs w fs job).2 = some (finalDir, wd)) :
    ¬finalDir ∈ processJobFs w fs job := by
  rcases hcl : cloneWorkspace w fs job with ⟨fs1, d⟩
  cases d with
  | none => simp [workspaceSetupFs, hcl] at hsetup
  | some f0 =>
    have hws : workspaceSetupFs w fs job
        = (fs1, some (f0, if job.folder = "" then f0
            else trimSuffix f0 ("/" ++ job.folder))) := by
      simp [workspaceSetupFs, hcl]
    rw [hws] at hsetup
    simp only [Option.some.injEq, Prod.mk.injEq] at hsetup
    obtain ⟨hfd, hwd⟩ := hsetup
    subst hfd
    have hproc : processJobFs w fs job
        = workspaceCleanupFs fs1 (if job.folder = "" then f0
            else trimSuffix f0 ("/" ++ job.folder)) := by
      simp [processJobFs, hws]
    rw [hproc]
    have hshape := cloneWorkspace_some w fs job fs1 f0 hcl
    by_cases hfol : job.folder = ""
    · rw [if_pos hfol]
      have hne : ¬f0 = "" := by
        rw [hshape, if_pos hfol]
        exact tempDirOf_ne_empty job w.rnd
      unfold workspaceCleanupFs
      rw [if_neg hne]
      exact self_not_mem_removeAllFs fs1 f0
    · rw [if_neg hfol]
      have htne := tempDirOf_ne_empty job w.rnd
      have hgj : f0 = pathClean (tempDirOf job w.rnd ++ "/" ++ job.folder) := by
        rw [hshape, if_neg hfol]
        unfold goJoin
        rw [if_neg htne, if_neg hfol]
      have hargdata : (tempDirOf job w.rnd ++ "/" ++ job.folder).data
          = ['/', 't', 'm', 'p', '/']
              ++ ("terrakube-job-" ++ (job.jobId ++ w.rnd)).data
              ++ '/' :: job.folder.data := by
        simp [tempDirOf, String.data_append, dataTmp, dataSlash]
      have hNd : ("terrakube-job-" ++ (job.jobId ++ w.rnd)).data
          = 't' :: 'e' :: 'r' :: 'r' :: 'a' :: 'k' :: 'u' :: 'b' :: 'e' :: '-'
            :: 'j' :: 'o' :: 'b' :: '-' :: (job.jobId.data ++ w.rnd.data) := by
        simp [String.data_append, dataTkj]
      have hNgood : goodC ("terrakube-job-" ++ (job.jobId ++ w.rnd)).data
          = true := by
        simp only [goodC, Bool.and_eq_true, decide_eq_true_eq]
        refine ⟨⟨⟨?_, ?_⟩, ?_⟩, ?_⟩
        · rw [hNd]; simp
        · rw [hNd]; simp
        · rw [hNd]; simp
        · rw [hNd]
          intro hm
          simp [hj, hr] at hm
      have hf0data : f0.data = '/' :: joinSlash (cleanCompsAux true []
          (splitSlash ((tempDirOf job w.rnd ++ "/" ++ job.folder)).data)) := by
        rw [hgj]
        exact pathClean_rooted_data _ (by rw [hargdata]; rfl)
      by_cases hsuf : strHasSuffix f0 ("/" ++ job.folder) = true
      · have hsufl : ("/" ++ job.folder).data.isSuffixOf f0.data = true := hsuf
        obtain ⟨pre, hpre⟩ : ∃ pre, f0.data = pre ++ ('/' :: job.folder.data) := by
          obtain ⟨pre, hp⟩ := List.isSuffixOf_iff_suffix.mp hsufl
          refine ⟨pre, ?_⟩
          rw [← hp]
          simp [String.data_append, dataSlash]
        have hwdd : (trimSuffix f0 ("/" ++ job.folder)).data = pre := by
          unfold trimSuffix
          rw [if_pos hsuf]
          show f0.data.take (f0.data.length - ("/" ++ job.folder).data.length)
            = pre
          rw [hpre]
          have hlen : (pre ++ '/' :: job.folder.data).length
              - ("/" ++ job.folder).data.length = pre.length := by
            simp [String.data_append, List.length_append]
          rw [hlen]
          exact List.take_left pre _
        by_cases hpe : pre = []
        · exfalso
          subst hpe
          have hJF : joinSlash (cleanCompsAux true []
              (splitSlash ((tempDirOf job w.rnd ++ "/" ++ job.folder)).data))
              = job.folder.data := by
            have h2 := hf0data.symm.trans hpre
            simp only [List.nil_append] at h2
            injection h2 with h2a h2b
          rw [hargdata] at hJF
          exact clean_no_collapse _ job.folder.data hNgood
            (fun hh => hfol (String.ext_iff.mpr hh)) hJF
        · have hwdne : ¬trimSuffix f0 ("/" ++ job.folder) = "" := by
            intro hh
            apply hpe
            have := congrArg String.data hh
            rw [hwdd] at this
            exact this
          unfold workspaceCleanupFs
          rw [if_neg hwdne]
          apply sub_not_mem_removeAllFs
          rw [List.isPrefixOf_iff_prefix]
          refine ⟨job.folder.data, ?_⟩
          rw [String.data_append, hwdd, hpre, dataSlash]
          simp
      · have htr : trimSuffix f0 ("/" ++ job.folder) = f0 := by
          unfold trimSuffix
          rw [if_neg hsuf]
        rw [htr]
        have hne : ¬f0 = "" := by
          intro hh
          have := congrArg String.data hh
          rw [hf0data] at this
          simp at this
        unfold workspaceCleanupFs
        rw [if_neg hne]
        exact self_not_mem_removeAllFs fs1 f0

/-- Job of the C2 counterexample: plain HTTPS clone, no subfolder. -/
def c2cJob : TerraformJob :=
  { jobId := "42", source := "git@example.com:org/repo.git" }

/-- World of the C2 counterexample: the `git clone` call fails. -/
def c2cWorld : GitWorld := { cloneOk := false }

/-- C2 (counterexample): when the clone fails, `CloneWorkspace` returns an
error without removing the freshly created temp root, `Setup` propagates
the error before `WorkingDir` is set, and `ProcessJob` returns on its
no-cleanup path — the job's temporary directory
`/tmp/terrakube-job-42x1` still exists on disk afterwards. -/
theorem c2_clone_failure_leaves_tempdir :
    tempDirOf c2cJob c2cWorld.rnd ∈ processJobFs c2cWorld [] c2cJob
      ∧ processJobFs c2cWorld [] c2cJob = [tempDirOf c2cJob c2cWorld.rnd] := by
  decide

/-- Job of the C2 witness: successful run with a subfolder. -/
def c2wJob : TerraformJob :=
  { jobId := "7", source := "https://example.com/org/repo.git",
    folder := "sub" }

/-- World of the C2 witness: everything succeeds. -/
def c2wWorld : GitWorld := {}

theorem c2_working_dir_removed_amended_witness :
    (workspaceSetupFs c2wWorld [] c2wJob).2
        = some ("/tmp/terrakube-job-7x1/sub", "/tmp/terrakube-job-7x1")
      ∧ ¬"/tmp/terrakube-job-7x1/sub" ∈ processJobFs c2wWorld [] c2wJob :=
  ⟨by decide,
    c2_working_dir_removed_amended c2wWorld [] c2wJob (by decide) (by decide)
      "/tmp/terrakube-job-7x1/sub" "/tmp/terrakube-job-7x1" (by decide)⟩
